import Mathlib

/-!
Shallow embedding of the O-RAN fronthaul analysis engine
(`capacity.py`, `topology.py`, `config.py`) over exact rationals,
together with theorems settling the specification claims.

Machine floats of the source are modelled by `ℚ` (and by `ℝ` where the
source takes a square root); numpy arrays by `List ℚ`; Python dicts by
association lists in insertion order.
-/

namespace Fronthaul

/-! ## Constants from `config.py` -/

/-- `SYMBOL_DURATION_US = 500 / 14` (config.py). -/
def SYMBOL_DURATION_US : ℚ := 500 / 14

/-- `SLOT_DURATION_US = 500` (config.py). -/
def SLOT_DURATION_US : ℚ := 500

/-- `SYMBOLS_PER_SLOT = 14` (config.py). -/
def SYMBOLS_PER_SLOT : ℕ := 14

/-- `BUFFER_SYMBOLS = 4` (config.py). -/
def BUFFER_SYMBOLS : ℕ := 4

/-- `BUFFER_DURATION_US = BUFFER_SYMBOLS * SYMBOL_DURATION_US` (config.py). -/
def BUFFER_DURATION_US : ℚ := (BUFFER_SYMBOLS : ℚ) * SYMBOL_DURATION_US

/-- `BUFFER_DURATION_SEC = BUFFER_DURATION_US / 1e6` (config.py). -/
def BUFFER_DURATION_SEC : ℚ := BUFFER_DURATION_US / 1000000

/-- `MAX_PACKET_LOSS_PCT = 1.0` (config.py). -/
def MAX_PACKET_LOSS_PCT : ℚ := 1

/-- `NUM_SHARED_LINKS = 3` (config.py). -/
def NUM_SHARED_LINKS : ℕ := 3

/-- `TOPOLOGY_ANCHORS = 1 maps to 2, 2 maps to 3` (config.py), as an
association list in dict insertion order. -/
def TOPOLOGY_ANCHORS : List (ℕ × ℕ) := [(1, 2), (2, 3)]

/-- `CAPACITY_TIME_WINDOW_SEC = 60` (config.py). -/
def CAPACITY_TIME_WINDOW_SEC : Option ℚ := some 60

/-- Slot duration in seconds, `SLOT_DURATION_US / 1e6` as computed in
`capacity.py`. -/
def slotDurSec : ℚ := SLOT_DURATION_US / 1000000

/-- Symbol duration in seconds, `SYMBOL_DURATION_US / 1e6` as computed in
`capacity.py`. -/
def symbolDurSec : ℚ := SYMBOL_DURATION_US / 1000000

/-! ## Generic list helpers shared by the embeddings -/

/-- Python `max(l)` / `np.max(l)` over a list of rationals; junk head
default for the empty list, which the source never passes. -/
def listMax (l : List ℚ) : ℚ := l.foldl max (l.headD 0)

/-- Numpy boolean-mask indexing `a[mask]`. -/
def maskSelect (d : List ℚ) (m : List Bool) : List ℚ :=
  ((d.zip m).filter (fun p => p.2)).map (fun p => p.1)

/-- Count of `true` entries, numpy `np.sum(mask)` on a boolean array. -/
def countTrue (m : List Bool) : ℕ := m.count true

/-- Numpy elementwise `and` of two boolean arrays. -/
def maskAnd (a b : List Bool) : List Bool := List.zipWith and a b

/-! ## `np.percentile` with the default linear interpolation -/

/-- Numpy `np.percentile(l, p)` with the default linear interpolation:
sort ascending, take the value at fractional rank `p / 100 * (n - 1)`,
interpolating linearly between the two neighbouring order statistics. -/
def percentileLinear (l : List ℚ) (p : ℚ) : ℚ :=
  let sorted := l.insertionSort (· ≤ ·)
  let h : ℚ := p * ((l.length : ℚ) - 1) / 100
  let i : ℕ := (Int.floor h).toNat
  let frac : ℚ := h - ((Int.floor h : ℤ) : ℚ)
  sorted.getD i 0 + frac * (sorted.getD (i + 1) 0 - sorted.getD i 0)

/-! ## `capacity_without_buffer` (capacity.py lines 118-145) -/

/-- Embedding of `capacity_without_buffer` (capacity.py).  `tmask` is the
optional `traffic_mask` argument, `pct` the `per_cell_traffic` dict as an
association list of per-cell boolean traffic masks. -/
def capacity_without_buffer (demand : List ℚ) (tmask : Option (List Bool))
    (pct : List (ℕ × List Bool)) (maxLoss : ℚ) : ℚ :=
  if demand.length = 0 then 0
  else
    let p := 100 - maxLoss
    if pct ≠ [] then
      let caps := pct.foldl
        (fun acc q =>
          let vals := maskSelect demand q.2
          if vals.length > 0 then acc ++ [percentileLinear vals p] else acc) []
      if caps ≠ [] then listMax caps else listMax demand
    else
      let vals :=
        match tmask with
        | some m => if m.any id then maskSelect demand m else demand.filter (fun d => 0 < d)
        | none => demand.filter (fun d => 0 < d)
      if vals.length = 0 then listMax demand else percentileLinear vals p

/-- Claim-side restatement of the unbuffered capacity (spec section 4.4):
maximum, over the cells whose traffic mask selects at least one slot, of
the `(100 - max_loss_pct)`-th percentile of the aggregate demand on that
cell's traffic slots; maximum aggregate demand when no per-cell
percentile can be formed; with no per-cell breakdown, the percentile
over the slots with nonzero aggregate demand, or over all slots if none
have traffic; `0` for an empty demand series. -/
def specCapacityNoBuffer (demand : List ℚ) (pct : List (ℕ × List Bool))
    (maxLoss : ℚ) : ℚ :=
  if demand = [] then 0
  else if pct ≠ [] then
    let caps := pct.filterMap
      (fun q =>
        if maskSelect demand q.2 ≠ [] then
          some (percentileLinear (maskSelect demand q.2) (100 - maxLoss))
        else none)
    if caps = [] then listMax demand else listMax caps
  else
    let pos := demand.filter (fun d => 0 < d)
    if pos = [] then percentileLinear demand (100 - maxLoss)
    else percentileLinear pos (100 - maxLoss)

/-- The `caps` accumulation loop of `capacity_without_buffer` is a
`filterMap`. -/
theorem caps_foldl_eq_filterMap (demand : List ℚ) (p : ℚ)
    (pct : List (ℕ × List Bool)) (acc : List ℚ) :
    pct.foldl
      (fun acc q =>
        let vals := maskSelect demand q.2
        if vals.length > 0 then acc ++ [percentileLinear vals p] else acc) acc =
      acc ++ pct.filterMap
        (fun q =>
          if maskSelect demand q.2 ≠ [] then
            some (percentileLinear (maskSelect demand q.2) p)
          else none) := by
  induction pct generalizing acc with
  | nil => simp
  | cons q rest ih =>
    by_cases h : (maskSelect demand q.2).length > 0
    · have hne : maskSelect demand q.2 ≠ [] := by
        intro hnil; rw [hnil] at h; simp at h
      simp only [List.foldl_cons, List.filterMap_cons, h, if_pos, hne, ite_true, ih]
      simp [hne]
    · have hnil : maskSelect demand q.2 = [] := by
        cases hm : maskSelect demand q.2 with
        | nil => rfl
        | cons a t => rw [hm] at h; simp at h
      simp only [List.foldl_cons, List.filterMap_cons, h, if_neg, hnil, ih]
      simp

/-- A list of nonnegative rationals with no positive element is all
zeros, so its `listMax` is `0`. -/
theorem listMax_of_all_zero (l : List ℚ) (h : ∀ d ∈ l, d = 0) (hne : l ≠ []) :
    listMax l = 0 := by
  unfold listMax
  cases l with
  | nil => simp at hne
  | cons a t =>
    have ha : a = 0 := h a (List.mem_cons_self a t)
    have : ∀ x ∈ t, x = 0 := fun x hx => h x (List.mem_cons_of_mem a hx)
    subst ha
    simp only [List.headD_cons, List.foldl_cons, max_self]
    clear h hne
    induction t with
    | nil => simp
    | cons b tb ih =>
      have hb : b = 0 := this b (List.mem_cons_self b tb)
      subst hb
      simp only [List.foldl_cons, max_self]
      exact ih (fun x hx => this x (List.mem_cons_of_mem 0 hx))

/-- The percentile of an all-zero list is `0`. -/
theorem percentileLinear_of_all_zero (l : List ℚ) (p : ℚ)
    (h : ∀ d ∈ l, d = 0) : percentileLinear l p = 0 := by
  unfold percentileLinear
  have hs : ∀ d ∈ l.insertionSort (· ≤ ·), d = 0 := by
    intro d hd
    exact h d ((List.perm_insertionSort (· ≤ ·) l).mem_iff.mp hd)
  have hget : ∀ i : ℕ, ((l.insertionSort (· ≤ ·))[i]?).getD 0 = 0 := by
    intro i
    rcases Nat.lt_or_ge i (l.insertionSort (· ≤ ·)).length with hlt | hge
    · rw [List.getElem?_eq_getElem hlt]
      exact hs _ (List.getElem_mem hlt)
    · rw [List.getElem?_eq_none hge]
      rfl
  simp [List.getD, hget]

/-- C1: with nonnegative demands, `capacity_without_buffer` (called with no
traffic-mask argument, the no-breakdown configuration the claim's fallback
speaks about) returns the maximum over cells with at least one traffic slot
of the `(100 - max_loss_pct)`-th percentile of aggregate demand on that
cell's traffic slots, the maximum aggregate demand when no per-cell
percentile can be formed, the percentile over nonzero-demand slots (or all
slots) without a per-cell breakdown, and `0` on an empty series. -/
theorem capacity_without_buffer_meets_spec (demand : List ℚ)
    (pct : List (ℕ × List Bool)) (maxLoss : ℚ)
    (hnn : ∀ d ∈ demand, 0 ≤ d) :
    capacity_without_buffer demand none pct maxLoss =
      specCapacityNoBuffer demand pct maxLoss := by
  unfold capacity_without_buffer specCapacityNoBuffer
  by_cases hd : demand = []
  · simp [hd]
  · have hlen : ¬ demand.length = 0 := by
      simpa [List.length_eq_zero] using hd
    simp only [hlen, if_neg, hd, ite_false]
    by_cases hp : pct = []
    · simp only [hp, ne_eq, not_true_eq_false, ite_false]
      by_cases hv : (demand.filter (fun d => 0 < d)) = []
      · have hvl : (demand.filter (fun d => 0 < d)).length = 0 := by
          simp [hv]
        simp only [hv, hvl, if_pos, ite_true]
        have hall : ∀ d ∈ demand, d = 0 := by
          intro d hdm
          rcases lt_or_eq_of_le (hnn d hdm) with hpos | hzero
          · exfalso
            have : d ∈ demand.filter (fun d => 0 < d) := by
              rw [List.mem_filter]
              exact ⟨hdm, by simpa using hpos⟩
            rw [hv] at this
            simp at this
          · exact hzero.symm
        rw [listMax_of_all_zero demand hall hd,
          percentileLinear_of_all_zero demand _ hall]
        simp
      · have hvl : ¬ (demand.filter (fun d => 0 < d)).length = 0 := by
          simpa [List.length_eq_zero] using hv
        simp [hv, hvl]
    · simp only [hp, ne_eq, not_false_eq_true, ite_true]
      rw [caps_foldl_eq_filterMap demand (100 - maxLoss) pct []]
      simp only [List.nil_append]
      by_cases hc :
          (pct.filterMap
            (fun q =>
              if maskSelect demand q.2 ≠ [] then
                some (percentileLinear (maskSelect demand q.2) (100 - maxLoss))
              else none)) = []
      · simp [hc]
      · simp [hc]

/-- Witness for C1 at a concrete input: two slots of demand, one cell
active only in the second slot. -/
theorem capacity_without_buffer_meets_spec_instance :
    (∀ d ∈ ([3, 5] : List ℚ), 0 ≤ d) ∧
      capacity_without_buffer [3, 5] none [(7, [false, true])] 1 =
        specCapacityNoBuffer [3, 5] [(7, [false, true])] 1 :=
  ⟨by decide, capacity_without_buffer_meets_spec [3, 5] [(7, [false, true])] 1 (by decide)⟩

/-! ## `capacity_with_buffer` and its loss simulation (capacity.py lines 148-197) -/

/-- Drain applied after a slot: `min(buffer, C * slot_dur) if C > 0 else 0`. -/
def simDrain (C b : ℚ) : ℚ := if 0 < C then min b (C * slotDurSec) else 0

/-- One slot of the buffered-link simulation in `sim_max_cell_loss`
(capacity.py): slots without demand are skipped; otherwise the overflow
`max(0, (d - C) * slot_dur)` is added to the backlog, a backlog above the
buffer size `BUFFER_DURATION_SEC * C` marks the slot lossy and clamps the
backlog to the buffer size, and the drain is subtracted. -/
def simStep (C buffer d : ℚ) : Bool × ℚ :=
  if d ≤ 0 then (false, buffer)
  else
    let buf1 := buffer + max 0 ((d - C) * slotDurSec)
    if BUFFER_DURATION_SEC * C < buf1 then
      (true, max 0 (BUFFER_DURATION_SEC * C - simDrain C (BUFFER_DURATION_SEC * C)))
    else (false, max 0 (buf1 - simDrain C buf1))

/-- The per-slot loss flags of `sim_max_cell_loss`, threading the backlog. -/
def simLossAux (C : ℚ) : ℚ → List ℚ → List Bool
  | _, [] => []
  | b, d :: ds => (simStep C b d).1 :: simLossAux C (simStep C b d).2 ds

/-- `loss_in_slot` array of `sim_max_cell_loss`: the simulation starts
with an empty backlog. -/
def simLossFlags (demand : List ℚ) (C : ℚ) : List Bool := simLossAux C 0 demand

/-- Closed form of a slot's loss flag at nonnegative capacity: the slot
has demand and its overflow alone exceeds the buffer size. -/
def lossAt (C d : ℚ) : Bool :=
  decide (0 < d) && decide (BUFFER_DURATION_SEC * C < (d - C) * slotDurSec)

/-- Worst-case per-cell loss percentage `sim_max_cell_loss` (capacity.py):
maximum over cells with at least one traffic slot of the percentage of
their traffic slots marked lossy; without a per-cell breakdown, the
percentage over all slots with positive demand. -/
def simMaxCellLoss (demand : List ℚ) (pct : List (ℕ × List Bool)) (C : ℚ) : ℚ :=
  let flags := simLossFlags demand C
  if pct ≠ [] then
    pct.foldl
      (fun m p =>
        if countTrue p.2 = 0 then m
        else max m (100 * (countTrue (maskAnd p.2 flags) : ℚ) / (countTrue p.2 : ℚ))) 0
  else
    let ts := demand.countP (fun d => decide (0 < d))
    if ts = 0 then 0 else 100 * (countTrue flags : ℚ) / (ts : ℚ)

/-- Embedding of `capacity_with_buffer` (capacity.py): 50 bisection
iterations on `[0, max(demand) * 1.1]`, keeping `hi` at candidates whose
simulated worst-case per-cell loss meets the bound. -/
def capacity_with_buffer (demand : List ℚ) (pct : List (ℕ × List Bool))
    (maxLoss : ℚ) : ℚ :=
  if demand.length = 0 then 0
  else
    ((List.range 50).foldl
      (fun b _ =>
        let mid := (b.1 + b.2) / 2
        if simMaxCellLoss demand pct mid ≤ maxLoss then (b.1, mid) else (mid, b.2))
      (0, listMax demand * (11 / 10))).2

/-! Arithmetic facts about the timing constants. -/

theorem bufferDur_pos : (0 : ℚ) < BUFFER_DURATION_SEC := by
  norm_num [BUFFER_DURATION_SEC, BUFFER_DURATION_US, SYMBOL_DURATION_US, BUFFER_SYMBOLS]

theorem slotDur_pos : (0 : ℚ) < slotDurSec := by
  norm_num [slotDurSec, SLOT_DURATION_US]

theorem bufferDur_le_slotDur : BUFFER_DURATION_SEC ≤ slotDurSec := by
  norm_num [BUFFER_DURATION_SEC, BUFFER_DURATION_US, SYMBOL_DURATION_US, BUFFER_SYMBOLS,
    slotDurSec, SLOT_DURATION_US]

theorem bufferSize_nonneg {C : ℚ} (hC : 0 ≤ C) : 0 ≤ BUFFER_DURATION_SEC * C :=
  mul_nonneg bufferDur_pos.le hC

theorem bufferSize_le_drainCap {C : ℚ} (hC : 0 ≤ C) :
    BUFFER_DURATION_SEC * C ≤ C * slotDurSec := by
  rw [mul_comm C slotDurSec]
  exact mul_le_mul_of_nonneg_right bufferDur_le_slotDur hC

/-- A rational below `max 0 x` with a nonnegative bound is below `x`. -/
theorem lt_max_zero_iff {c x : ℚ} (hc : 0 ≤ c) : c < max 0 x ↔ c < x := by
  constructor
  · intro h
    by_cases hx : x ≤ 0
    · rw [max_eq_left hx] at h
      exact absurd h (not_lt.mpr hc)
    · rwa [max_eq_right (le_of_lt (not_le.mp hx))] at h
  · intro h
    exact lt_of_lt_of_le h (le_max_right 0 x)

/-- A fully drainable backlog empties: `max 0 (b - drain) = 0` whenever
`0 ≤ b ≤ C * slot_dur`. -/
theorem simDrain_empties {C b : ℚ} (hC : 0 ≤ C) (hb : 0 ≤ b)
    (hbs : b ≤ C * slotDurSec) : max 0 (b - simDrain C b) = 0 := by
  unfold simDrain
  by_cases hCp : 0 < C
  · rw [if_pos hCp, min_eq_left hbs, sub_self, max_self]
  · have hc0 : C = 0 := le_antisymm (not_lt.mp hCp) hC
    have hb0 : b = 0 := le_antisymm (by simpa [hc0] using hbs) hb
    simp [hCp, hb0]

/-- With an empty backlog and nonnegative capacity, one simulation slot of
the source loss simulation produces the closed-form flag and leaves the
backlog empty. -/
theorem simStep_zero (C d : ℚ) (hC : 0 ≤ C) : simStep C 0 d = (lossAt C d, 0) := by
  unfold simStep lossAt
  by_cases hd : d ≤ 0
  · have : ¬ (0 < d) := not_lt.mpr hd
    simp [hd, this]
  · have hd' : 0 < d := not_le.mp hd
    simp only [hd, ite_false, zero_add]
    by_cases hl : BUFFER_DURATION_SEC * C < max 0 ((d - C) * slotDurSec)
    · have hl' : BUFFER_DURATION_SEC * C < (d - C) * slotDurSec :=
        (lt_max_zero_iff (bufferSize_nonneg hC)).mp hl
      rw [if_pos hl,
        simDrain_empties hC (bufferSize_nonneg hC) (bufferSize_le_drainCap hC)]
      simp [hd', hl']
    · have hb1 : max 0 ((d - C) * slotDurSec) ≤ BUFFER_DURATION_SEC * C := not_lt.mp hl
      have hnl : ¬ (BUFFER_DURATION_SEC * C < (d - C) * slotDurSec) :=
        fun h => hl ((lt_max_zero_iff (bufferSize_nonneg hC)).mpr h)
      rw [if_neg hl,
        simDrain_empties hC (le_max_left 0 _)
          (le_trans hb1 (bufferSize_le_drainCap hC))]
      simp [hd', hnl]

/-- At nonnegative capacity the source loss flags are the closed form,
slot by slot. -/
theorem simLossFlags_eq_map (demand : List ℚ) (C : ℚ) (hC : 0 ≤ C) :
    simLossFlags demand C = demand.map (lossAt C) := by
  unfold simLossFlags
  induction demand with
  | nil => rfl
  | cons d ds ih =>
    show (simStep C 0 d).1 :: simLossAux C (simStep C 0 d).2 ds = _
    rw [simStep_zero C d hC]
    simpa using ih

/-- A slot lossy at the larger capacity is lossy at the smaller one. -/
theorem lossAt_mono {C₁ C₂ : ℚ} (_h0 : 0 ≤ C₁) (h12 : C₁ ≤ C₂) (d : ℚ)
    (h : lossAt C₂ d = true) : lossAt C₁ d = true := by
  unfold lossAt at h ⊢
  rcases Bool.and_eq_true_iff.mp h with ⟨hd, hc⟩
  have hd' : 0 < d := of_decide_eq_true hd
  have hc' : BUFFER_DURATION_SEC * C₂ < (d - C₂) * slotDurSec := of_decide_eq_true hc
  have hb : BUFFER_DURATION_SEC * C₁ ≤ BUFFER_DURATION_SEC * C₂ :=
    mul_le_mul_of_nonneg_left h12 bufferDur_pos.le
  have hs : (d - C₂) * slotDurSec ≤ (d - C₁) * slotDurSec :=
    mul_le_mul_of_nonneg_right (by linarith) slotDur_pos.le
  have : BUFFER_DURATION_SEC * C₁ < (d - C₁) * slotDurSec :=
    lt_of_le_of_lt hb (lt_of_lt_of_le hc' hs)
  simp [hd', this]

/-- Counting lossy traffic slots is antitone under a pointwise implication
between the flag maps. -/
theorem countTrue_maskAnd_map_le (f g : ℚ → Bool)
    (h : ∀ d, f d = true → g d = true) :
    ∀ (m : List Bool) (l : List ℚ),
      countTrue (maskAnd m (l.map f)) ≤ countTrue (maskAnd m (l.map g)) := by
  intro m
  induction m with
  | nil => intro l; simp [maskAnd, countTrue]
  | cons b bs ih =>
    intro l
    cases l with
    | nil => simp [maskAnd, countTrue]
    | cons d ds =>
      simp only [maskAnd, List.map_cons, List.zipWith_cons_cons, countTrue,
        List.count_cons, beq_iff_eq]
      have hrec := ih ds
      simp only [maskAnd, countTrue] at hrec
      have hflag : (if (b && f d) = true then 1 else 0) ≤
          (if (b && g d) = true then 1 else 0) := by
        by_cases hf : (b && f d) = true
        · rcases Bool.and_eq_true_iff.mp hf with ⟨hb, hfd⟩
          have hg : (b && g d) = true := Bool.and_eq_true_iff.mpr ⟨hb, h d hfd⟩
          simp [hf, hg]
        · simp [hf]
      omega

/-- Counting raised flags is antitone under a pointwise implication. -/
theorem countTrue_map_le (f g : ℚ → Bool) (h : ∀ d, f d = true → g d = true)
    (l : List ℚ) : countTrue (l.map f) ≤ countTrue (l.map g) := by
  induction l with
  | nil => simp [countTrue]
  | cons d ds ih =>
    simp only [List.map_cons, countTrue, List.count_cons, beq_iff_eq]
    have hflag : (if f d = true then 1 else 0) ≤ (if g d = true then 1 else 0) := by
      by_cases hf : f d = true
      · simp [hf, h d hf]
      · simp [hf]
    simp only [countTrue] at ih
    omega

/-- The per-cell fold of `sim_max_cell_loss` is monotone in the flag
percentages and the accumulator. -/
theorem simLoss_fold_mono (flags₁ flags₂ : List Bool)
    (h : ∀ p : ℕ × List Bool,
      countTrue (maskAnd p.2 flags₂) ≤ countTrue (maskAnd p.2 flags₁)) :
    ∀ (pct : List (ℕ × List Bool)) (m₁ m₂ : ℚ), m₂ ≤ m₁ →
      pct.foldl
        (fun m p =>
          if countTrue p.2 = 0 then m
          else max m (100 * (countTrue (maskAnd p.2 flags₂) : ℚ) / (countTrue p.2 : ℚ))) m₂ ≤
      pct.foldl
        (fun m p =>
          if countTrue p.2 = 0 then m
          else max m (100 * (countTrue (maskAnd p.2 flags₁) : ℚ) / (countTrue p.2 : ℚ))) m₁ := by
  intro pct
  induction pct with
  | nil => intro m₁ m₂ hm; simpa using hm
  | cons p rest ih =>
    intro m₁ m₂ hm
    simp only [List.foldl_cons]
    by_cases hts : countTrue p.2 = 0
    · simp only [hts, if_pos, ite_true]
      exact ih m₁ m₂ hm
    · simp only [hts, ite_false]
      refine ih _ _ (max_le_max hm ?_)
      have hpos : (0 : ℚ) < (countTrue p.2 : ℚ) := by
        exact_mod_cast Nat.pos_of_ne_zero hts
      apply (div_le_div_iff_of_pos_right hpos).mpr
      have := h p
      have hcast : ((countTrue (maskAnd p.2 flags₂) : ℚ)) ≤
          (countTrue (maskAnd p.2 flags₁) : ℚ) := by exact_mod_cast this
      linarith

/-- C3: for a fixed demand series and per-cell traffic masks, the
simulated worst-case per-cell loss percentage of `sim_max_cell_loss` is
non-increasing in the candidate capacity. -/
theorem simMaxCellLoss_antitone (demand : List ℚ) (pct : List (ℕ × List Bool))
    (C₁ C₂ : ℚ) (h0 : 0 ≤ C₁) (h12 : C₁ ≤ C₂) :
    simMaxCellLoss demand pct C₂ ≤ simMaxCellLoss demand pct C₁ := by
  have h0' : 0 ≤ C₂ := le_trans h0 h12
  unfold simMaxCellLoss
  rw [simLossFlags_eq_map demand C₁ h0, simLossFlags_eq_map demand C₂ h0']
  have hcount : ∀ p : ℕ × List Bool,
      countTrue (maskAnd p.2 (demand.map (lossAt C₂))) ≤
        countTrue (maskAnd p.2 (demand.map (lossAt C₁))) :=
    fun p => countTrue_maskAnd_map_le _ _ (lossAt_mono h0 h12) p.2 demand
  by_cases hp : pct = []
  · simp only [hp, ne_eq, not_true_eq_false, ite_false]
    by_cases hts : demand.countP (fun d => decide (0 < d)) = 0
    · simp [hts]
    · simp only [hts, ite_false]
      have hpos : (0 : ℚ) < (demand.countP (fun d => decide (0 < d)) : ℚ) := by
        exact_mod_cast Nat.pos_of_ne_zero hts
      apply (div_le_div_iff_of_pos_right hpos).mpr
      have hmono : countTrue (demand.map (lossAt C₂)) ≤
          countTrue (demand.map (lossAt C₁)) :=
        countTrue_map_le _ _ (lossAt_mono h0 h12) demand
      have hcast : ((countTrue (demand.map (lossAt C₂)) : ℚ)) ≤
          (countTrue (demand.map (lossAt C₁)) : ℚ) := by exact_mod_cast hmono
      linarith
  · simp only [hp, ne_eq, not_false_eq_true, ite_true]
    exact simLoss_fold_mono _ _ hcount pct 0 0 le_rfl

/-- Witness for C3 at concrete capacities 1 and 2. -/
theorem simMaxCellLoss_antitone_instance :
    (0 : ℚ) ≤ 1 ∧ (1 : ℚ) ≤ 2 ∧
      simMaxCellLoss [5] [(1, [true])] 2 ≤ simMaxCellLoss [5] [(1, [true])] 1 :=
  ⟨by norm_num, by norm_num,
    simMaxCellLoss_antitone [5] [(1, [true])] 1 2 (by norm_num) (by norm_num)⟩

/-! ## Claim-side buffered model (spec section 4.4, buffered) -/

/-- One slot of the buffered FIFO model in the claim's words: the buffer
of size `buffer_duration * C` bits is fed `max(0, demand - C) * slot_dur`
bits of overflow, a slot is lossy exactly when the accumulated backlog
would exceed the buffer size, the backlog is clamped to the buffer size,
and up to `C * slot_dur` bits are drained. -/
def specSimStep (C buffer d : ℚ) : Bool × ℚ :=
  let fed := buffer + max 0 ((d - C) * slotDurSec)
  let size := BUFFER_DURATION_SEC * C
  (decide (size < fed), min fed size - min (min fed size) (C * slotDurSec))

/-- Loss flags of the claim-side buffered model, threading the backlog. -/
def specSimAux (C : ℚ) : ℚ → List ℚ → List Bool
  | _, [] => []
  | b, d :: ds => (specSimStep C b d).1 :: specSimAux C (specSimStep C b d).2 ds

/-- Claim-side loss flags, starting from an empty buffer. -/
def specSimFlags (demand : List ℚ) (C : ℚ) : List Bool := specSimAux C 0 demand

/-- Claim-side worst-case per-cell loss percentage: maximum over the cells
with traffic slots of the share of their traffic slots that are lossy. -/
def specMaxCellLoss (demand : List ℚ) (pct : List (ℕ × List Bool)) (C : ℚ) : ℚ :=
  let flags := specSimFlags demand C
  if pct ≠ [] then
    (pct.filterMap
      (fun p =>
        if countTrue p.2 = 0 then none
        else some (100 * (countTrue (maskAnd p.2 flags) : ℚ) / (countTrue p.2 : ℚ)))).foldl
      max 0
  else
    let ts := demand.countP (fun d => decide (0 < d))
    if ts = 0 then 0 else 100 * (countTrue flags : ℚ) / (ts : ℚ)

/-- Claim-side 50-iteration binary search on `[lo, hi]` keeping the lowest
`hi` whose simulated worst-case per-cell loss meets the bound. -/
def specBisect (demand : List ℚ) (pct : List (ℕ × List Bool)) (maxLoss : ℚ) :
    ℕ → ℚ → ℚ → ℚ
  | 0, _, hi => hi
  | n + 1, lo, hi =>
    let mid := (lo + hi) / 2
    if specMaxCellLoss demand pct mid ≤ maxLoss then
      specBisect demand pct maxLoss n lo mid
    else specBisect demand pct maxLoss n mid hi

/-- Claim-side buffered capacity: binary search over
`[0, 1.1 * max(demand)]` for 50 iterations. -/
def specCapacityWithBuffer (demand : List ℚ) (pct : List (ℕ × List Bool))
    (maxLoss : ℚ) : ℚ :=
  specBisect demand pct maxLoss 50 0 ((11 / 10) * listMax demand)

/-- With an empty backlog and nonnegative capacity, one slot of the
claim-side buffered model also produces the closed-form flag and leaves
the backlog empty. -/
theorem specSimStep_zero (C d : ℚ) (hC : 0 ≤ C) :
    specSimStep C 0 d = (lossAt C d, 0) := by
  unfold specSimStep lossAt
  simp only [zero_add]
  have hsize : 0 ≤ BUFFER_DURATION_SEC * C := bufferSize_nonneg hC
  have hdrain : BUFFER_DURATION_SEC * C ≤ C * slotDurSec := bufferSize_le_drainCap hC
  by_cases hd : 0 < d
  · by_cases hl : BUFFER_DURATION_SEC * C < max 0 ((d - C) * slotDurSec)
    · have hl' : BUFFER_DURATION_SEC * C < (d - C) * slotDurSec :=
        (lt_max_zero_iff hsize).mp hl
      have hmin : min (max 0 ((d - C) * slotDurSec)) (BUFFER_DURATION_SEC * C) =
          BUFFER_DURATION_SEC * C := min_eq_right hl.le
      rw [hmin, min_eq_left hdrain, sub_self]
      simp [hd, hl, hl']
    · have hfed : max 0 ((d - C) * slotDurSec) ≤ BUFFER_DURATION_SEC * C := not_lt.mp hl
      have hnl : ¬ (BUFFER_DURATION_SEC * C < (d - C) * slotDurSec) :=
        fun h => hl ((lt_max_zero_iff hsize).mpr h)
      have hmin : min (max 0 ((d - C) * slotDurSec)) (BUFFER_DURATION_SEC * C) =
          max 0 ((d - C) * slotDurSec) := min_eq_left hfed
      rw [hmin, min_eq_left (le_trans hfed hdrain), sub_self]
      simp [hd, hl, hnl]
  · have hx : (d - C) * slotDurSec ≤ 0 :=
      mul_nonpos_of_nonpos_of_nonneg (by linarith [not_lt.mp hd]) slotDur_pos.le
    have hfed : max 0 ((d - C) * slotDurSec) = 0 := max_eq_left hx
    rw [hfed]
    have hl : ¬ (BUFFER_DURATION_SEC * C < 0) := not_lt.mpr hsize
    have hmin0 : min (0 : ℚ) (BUFFER_DURATION_SEC * C) = 0 := min_eq_left hsize
    rw [hmin0]
    have hCs : 0 ≤ C * slotDurSec := mul_nonneg hC slotDur_pos.le
    rw [min_eq_left hCs, sub_zero]
    simp [hd, hl]

/-- At nonnegative capacity the claim-side loss flags also equal the
closed form. -/
theorem specSimFlags_eq_map (demand : List ℚ) (C : ℚ) (hC : 0 ≤ C) :
    specSimFlags demand C = demand.map (lossAt C) := by
  unfold specSimFlags
  induction demand with
  | nil => rfl
  | cons d ds ih =>
    show (specSimStep C 0 d).1 :: specSimAux C (specSimStep C 0 d).2 ds = _
    rw [specSimStep_zero C d hC]
    simpa using ih

/-- A guarded fold of maxima equals the fold of maxima over the
corresponding `filterMap`. -/
theorem fold_if_max_eq_filterMap_fold {α : Type} (c : α → Prop) [DecidablePred c]
    (t : α → ℚ) :
    ∀ (l : List α) (m : ℚ),
      l.foldl (fun m p => if c p then m else max m (t p)) m =
        (l.filterMap (fun p => if c p then none else some (t p))).foldl max m := by
  intro l
  induction l with
  | nil => intro m; rfl
  | cons p rest ih =>
    intro m
    by_cases hc : c p
    · simp only [List.foldl_cons, List.filterMap_cons, hc, ite_true, if_pos]
      exact ih m
    · simp only [List.foldl_cons, List.filterMap_cons, hc, ite_false, if_neg,
        not_false_iff]
      exact ih (max m (t p))

/-- Source and claim-side worst-case per-cell loss percentages agree at
every nonnegative candidate capacity. -/
theorem simMaxCellLoss_eq_spec (demand : List ℚ) (pct : List (ℕ × List Bool))
    (C : ℚ) (hC : 0 ≤ C) :
    simMaxCellLoss demand pct C = specMaxCellLoss demand pct C := by
  unfold simMaxCellLoss specMaxCellLoss
  rw [simLossFlags_eq_map demand C hC, specSimFlags_eq_map demand C hC]
  by_cases hp : pct = []
  · simp [hp]
  · simp only [hp, ne_eq, not_false_eq_true, ite_true]
    exact fold_if_max_eq_filterMap_fold _ _ pct 0

/-- Every element of a list bounds `listMax` from below. -/
theorem le_listMax (l : List ℚ) (d : ℚ) (hd : d ∈ l) : d ≤ listMax l := by
  unfold listMax
  have haux : ∀ (t : List ℚ) (a : ℚ), a ≤ t.foldl max a := by
    intro t
    induction t with
    | nil => intro a; exact le_rfl
    | cons b tb ih =>
      intro a
      exact le_trans (le_max_left a b) (ih (max a b))
  have hmem : ∀ (t : List ℚ) (a x : ℚ), x ∈ t → x ≤ t.foldl max a := by
    intro t
    induction t with
    | nil => intro a x hx; simp at hx
    | cons b tb ih =>
      intro a x hx
      rcases List.mem_cons.mp hx with hxb | hxt
      · subst hxb
        exact le_trans (le_max_right a x) (haux tb (max a x))
      · exact ih (max a b) x hxt
  cases l with
  | nil => simp at hd
  | cons a t =>
    rcases List.mem_cons.mp hd with hda | hdt
    · subst hda
      simpa using haux t d
    · simpa using hmem t a d hdt

/-- The source bisection fold equals the claim-side bisection recursion
whenever both endpoints are nonnegative. -/
theorem bisect_fold_eq_spec (demand : List ℚ) (pct : List (ℕ × List Bool))
    (maxLoss : ℚ) :
    ∀ (n : ℕ) (lo hi : ℚ), 0 ≤ lo → 0 ≤ hi →
      ((List.range n).foldl
        (fun b _ =>
          let mid := (b.1 + b.2) / 2
          if simMaxCellLoss demand pct mid ≤ maxLoss then (b.1, mid) else (mid, b.2))
        (lo, hi)).2 = specBisect demand pct maxLoss n lo hi := by
  intro n
  induction n with
  | zero => intro lo hi _ _; rfl
  | succ n ih =>
    intro lo hi hlo hhi
    rw [List.range_succ_eq_map, List.foldl_cons, List.foldl_map]
    have hmid : 0 ≤ (lo + hi) / 2 := by positivity
    show ((List.range n).foldl _
        (if simMaxCellLoss demand pct ((lo + hi) / 2) ≤ maxLoss
          then (lo, (lo + hi) / 2) else ((lo + hi) / 2, hi))).2 = _
    rw [simMaxCellLoss_eq_spec demand pct _ hmid]
    unfold specBisect
    by_cases hcond : specMaxCellLoss demand pct ((lo + hi) / 2) ≤ maxLoss
    · simp only [hcond, ite_true, if_pos]
      exact ih lo ((lo + hi) / 2) hlo hmid
    · simp only [hcond, ite_false, if_neg, not_false_iff]
      exact ih ((lo + hi) / 2) hi hmid hhi

/-- C2: for a nonempty series of nonnegative demands,
`capacity_with_buffer` returns the result of the claim's 50-iteration
binary search on `[0, 1.1 * max(demand)]` for the least candidate whose
simulated worst-case per-cell loss percentage (FIFO buffer of
`buffer_duration * C` bits, fed `max(0, demand - C) * slot_dur` overflow,
drained by up to `C * slot_dur` bits, lossy slots clamping the backlog to
the buffer size) stays within the bound. -/
theorem capacity_with_buffer_meets_spec (demand : List ℚ)
    (pct : List (ℕ × List Bool)) (maxLoss : ℚ)
    (hne : demand ≠ []) (hnn : ∀ d ∈ demand, 0 ≤ d) :
    capacity_with_buffer demand pct maxLoss =
      specCapacityWithBuffer demand pct maxLoss := by
  unfold capacity_with_buffer specCapacityWithBuffer
  have hlen : ¬ demand.length = 0 := by
    simpa [List.length_eq_zero] using hne
  simp only [hlen, ite_false]
  have hmax : 0 ≤ listMax demand := by
    cases demand with
    | nil => simp at hne
    | cons a t =>
      exact le_trans (hnn a (List.mem_cons_self a t))
        (le_listMax (a :: t) a (List.mem_cons_self a t))
  have hhi : 0 ≤ listMax demand * (11 / 10) := by positivity
  rw [bisect_fold_eq_spec demand pct maxLoss 50 0 (listMax demand * (11 / 10))
    le_rfl hhi, mul_comm]

/-- Witness for C2 at a concrete two-slot input. -/
theorem capacity_with_buffer_meets_spec_instance :
    (([4, 0] : List ℚ) ≠ [] ∧ ∀ d ∈ ([4, 0] : List ℚ), 0 ≤ d) ∧
      capacity_with_buffer [4, 0] [(1, [true, false])] 1 =
        specCapacityWithBuffer [4, 0] [(1, [true, false])] 1 :=
  ⟨⟨by decide, by decide⟩,
    capacity_with_buffer_meets_spec [4, 0] [(1, [true, false])] 1
      (by decide) (by decide)⟩

/-! ## Demand aggregation (`aggregate_link_demand_slot_level`, capacity.py
lines 34-104) -/

/-- One row of a per-cell throughput dataframe: timestamp (seconds) and
`bits_kbit`. -/
structure TRec where
  ts : ℚ
  kbits : ℚ
deriving DecidableEq

/-- Numpy `.round()`: round half to even. -/
def roundHalfEven (q : ℚ) : ℤ :=
  if q - ⌊q⌋ < 1 / 2 then ⌊q⌋
  else if 1 / 2 < q - ⌊q⌋ then ⌊q⌋ + 1
  else if Even ⌊q⌋ then ⌊q⌋ else ⌊q⌋ + 1

/-- Symbol index of a record: `np.clip(round((ts - t0) / symbol_dur), 0, n - 1)`. -/
def symIdx (t0 : ℚ) (n : ℕ) (ts : ℚ) : ℕ :=
  min (roundHalfEven ((ts - t0) / symbolDurSec)).toNat (n - 1)

/-- Bits binned into symbol `i` for one cell: the sum of `bits_kbit * 1000`
over the records inside `[t0, t1]` whose rounded symbol index is `i`. -/
def cellSymbolBits (recs : List TRec) (t0 t1 : ℚ) (n : ℕ) (i : ℕ) : ℚ :=
  ((recs.filter (fun r => decide (t0 ≤ r.ts) && decide (r.ts ≤ t1))).filterMap
    (fun r => if symIdx t0 n r.ts = i then some (r.kbits * 1000) else none)).sum

/-- Minimum timestamp of a cell's records (`df.timestamp.min()`); junk `0`
for an empty frame, where the source would propagate a NaN and fail. -/
def tsMin (recs : List TRec) : ℚ :=
  match recs with
  | [] => 0
  | r :: rest => rest.foldl (fun a s => min a s.ts) r.ts

/-- Maximum timestamp of a cell's records (`df.timestamp.max()`); junk `0`
for an empty frame. -/
def tsMax (recs : List TRec) : ℚ :=
  match recs with
  | [] => 0
  | r :: rest => rest.foldl (fun a s => max a s.ts) r.ts

/-- `t0`: minimum timestamp across the link's cells. -/
def linkT0 (thr : ℕ → List TRec) (cells : List ℕ) : ℚ :=
  match cells.map (fun c => tsMin (thr c)) with
  | [] => 0
  | x :: xs => xs.foldl min x

/-- Maximum timestamp across the link's cells, before the window cap. -/
def linkT1raw (thr : ℕ → List TRec) (cells : List ℕ) : ℚ :=
  match cells.map (fun c => tsMax (thr c)) with
  | [] => 0
  | x :: xs => xs.foldl max x

/-- `t1` after the optional `CAPACITY_TIME_WINDOW_SEC` cap. -/
def linkT1 (thr : ℕ → List TRec) (cells : List ℕ) (window : Option ℚ) : ℚ :=
  match window with
  | some w => min (linkT1raw thr cells) (linkT0 thr cells + w)
  | none => linkT1raw thr cells

/-- `n_symbols = int((t1 - t0) / symbol_dur_sec) + 1`. -/
def nSymbolsOf (thr : ℕ → List TRec) (cells : List ℕ) (window : Option ℚ) : ℕ :=
  (⌊(linkT1 thr cells window - linkT0 thr cells) / symbolDurSec⌋).toNat + 1

/-- Keys of a Python dict comprehension over `cell_ids`: first-occurrence
deduplication. -/
def firstDedup : List ℕ → List ℕ
  | [] => []
  | a :: l => a :: firstDedup (l.filter (fun x => !(x == a)))
termination_by l => l.length
decreasing_by
  simp only [List.length_cons]
  exact Nat.lt_succ_of_le (List.length_filter_le _ _)

/-- Combined symbol-level bits of a link: each iteration of the source's
cell loop adds that cell's binned bits. -/
def combinedSymbolBits (thr : ℕ → List TRec) (cells : List ℕ) (t0 t1 : ℚ)
    (n : ℕ) (i : ℕ) : ℚ :=
  (cells.map (fun c => cellSymbolBits (thr c) t0 t1 n i)).sum

/-- Per-cell symbol bits keyed per distinct cell id: a cell id occurring
`k` times in `cell_ids` is accumulated `k` times by the source loop. -/
def perCellSymbolBits (thr : ℕ → List TRec) (cells : List ℕ) (t0 t1 : ℚ)
    (n : ℕ) (c : ℕ) (i : ℕ) : ℚ :=
  (cells.count c : ℚ) * cellSymbolBits (thr c) t0 t1 n i

/-- Reshape-and-sum to slot level: sum of `SYMBOLS_PER_SLOT` consecutive
symbol bins. -/
def slotBits (f : ℕ → ℚ) (t : ℕ) : ℚ :=
  ((List.range SYMBOLS_PER_SLOT).map (fun k => f (t * SYMBOLS_PER_SLOT + k))).sum

/-- The quadruple returned per link by `aggregate_link_demand_slot_level`. -/
structure LinkSeries where
  slotTs : List ℚ
  demand : List ℚ
  perCellTraffic : List (ℕ × List Bool)
  perCellDemand : List (ℕ × List ℚ)
deriving DecidableEq

/-- The empty quadruple `(np.array([]), np.array([]), dict(), dict())`. -/
def emptySeries : LinkSeries := ⟨[], [], [], []⟩

/-- Embedding of `aggregate_link_demand_slot_level` (capacity.py) for one
link: empty result for a link without cells or with fewer symbols than one
slot; otherwise bits are binned per symbol, reshaped to slots, and
converted to Gbps, with a per-cell breakdown and per-cell traffic masks
thresholded at 0.01 Gbps. -/
def aggregateLinkDemand (thr : ℕ → List TRec) (cells : List ℕ)
    (window : Option ℚ) : LinkSeries :=
  if cells = [] then emptySeries
  else
    let t0 := linkT0 thr cells
    let t1 := linkT1 thr cells window
    let n := nSymbolsOf thr cells window
    if n < SYMBOLS_PER_SLOT then emptySeries
    else
      let nSlots := n / SYMBOLS_PER_SLOT
      let pcd := (firstDedup cells).map
        (fun c => (c, (List.range nSlots).map
          (fun t => slotBits (perCellSymbolBits thr cells t0 t1 n c) t /
            (slotDurSec * 1000000000))))
      { slotTs := (List.range nSlots).map
          (fun t => t0 + ((t : ℚ) + 1 / 2) * slotDurSec)
        demand := (List.range nSlots).map
          (fun t => slotBits (combinedSymbolBits thr cells t0 t1 n) t /
            (slotDurSec * 1000000000))
        perCellTraffic := pcd.map
          (fun p => (p.1, p.2.map (fun d => decide (1 / 100 < d))))
        perCellDemand := pcd }

/-! Summation helpers for the conservation proof. -/

/-- Sums of pointwise sums of rationals split. -/
theorem sum_map_add_distrib (ks : List ℕ) (f g : ℕ → ℚ) :
    (ks.map (fun k => f k + g k)).sum = (ks.map f).sum + (ks.map g).sum := by
  induction ks with
  | nil => simp
  | cons k rest ih => simp [ih]; ring

/-- Finite double sums over lists commute. -/
theorem sum_swap_list (cells : List ℕ) (F : ℕ → ℕ → ℚ) (ks : List ℕ) :
    (ks.map (fun k => (cells.map (fun c => F c k)).sum)).sum =
      (cells.map (fun c => (ks.map (F c)).sum)).sum := by
  induction cells with
  | nil => simp
  | cons c rest ih =>
    simp only [List.map_cons, List.sum_cons]
    rw [← ih, ← sum_map_add_distrib]

/-- Dividing after summing is dividing each term. -/
theorem sum_map_div_distrib (l : List ℕ) (h : ℕ → ℚ) (D : ℚ) :
    (l.map (fun c => h c / D)).sum = (l.map h).sum / D := by
  induction l with
  | nil => simp
  | cons c rest ih => simp [ih]; ring

/-- Splitting a sum over a list at the occurrences of one value. -/
theorem sum_split_count (l : List ℕ) (a : ℕ) (H : ℕ → ℚ) :
    (l.map H).sum =
      (l.count a : ℚ) * H a + ((l.filter (fun x => !(x == a))).map H).sum := by
  induction l with
  | nil => simp
  | cons b rest ih =>
    by_cases hb : b = a
    · subst hb
      simp only [List.map_cons, List.sum_cons, List.count_cons_self,
        List.filter_cons, beq_self_eq_true, Bool.not_true]
      rw [ih]
      push_cast
      ring
    · have hbeq : (b == a) = false := beq_eq_false_iff_ne.mpr hb
      simp only [List.map_cons, List.sum_cons, List.count_cons, hbeq,
        List.filter_cons, Bool.not_false, if_false, cond_true]
      rw [ih]
      simp [hbeq]
      ring

/-- Members of `firstDedup l` are members of `l`. -/
theorem mem_of_mem_firstDedup : ∀ (l : List ℕ) (c : ℕ), c ∈ firstDedup l → c ∈ l
  | [], _, h => by simp [firstDedup] at h
  | a :: l, c, h => by
    rw [firstDedup] at h
    rcases List.mem_cons.mp h with hc | hc
    · exact hc ▸ List.mem_cons_self a l
    · exact List.mem_cons_of_mem a
        (List.mem_of_mem_filter (mem_of_mem_firstDedup _ c hc))
termination_by l => l.length
decreasing_by
  simp only [List.length_cons]
  exact Nat.lt_succ_of_le (List.length_filter_le _ _)

/-- Summing each distinct value's contribution with multiplicity recovers
the plain sum over the list. -/
theorem sum_firstDedup_count : ∀ (l : List ℕ) (H : ℕ → ℚ),
    ((firstDedup l).map (fun c => (l.count c : ℚ) * H c)).sum = (l.map H).sum
  | [], _ => by simp [firstDedup]
  | a :: l, H => by
    rw [firstDedup]
    simp only [List.map_cons, List.sum_cons]
    have hcongr : (firstDedup (l.filter (fun x => !(x == a)))).map
        (fun c => ((a :: l).count c : ℚ) * H c) =
      (firstDedup (l.filter (fun x => !(x == a)))).map
        (fun c => ((l.filter (fun x => !(x == a))).count c : ℚ) * H c) := by
      apply List.map_congr_left
      intro c hc
      have hcl : c ∈ l.filter (fun x => !(x == a)) :=
        mem_of_mem_firstDedup _ c hc
      have hne : c ≠ a := by
        have := List.of_mem_filter hcl
        simpa using this
      have h1 : (a :: l).count c = l.count c := by
        rw [List.count_cons]
        have hac : (a == c) = false := beq_eq_false_iff_ne.mpr (fun h => hne h.symm)
        simp [hac]
      have h2 : (l.filter (fun x => !(x == a))).count c = l.count c := by
        have hpc : (fun x => !(x == a)) c = true := by
          simp [beq_eq_false_iff_ne.mpr hne]
        exact List.count_filter hpc
      rw [h1, h2]
    rw [hcongr, sum_firstDedup_count (l.filter (fun x => !(x == a))) H,
      sum_split_count l a H]
    simp only [List.count_cons_self]
    push_cast
    ring
termination_by l => l.length
decreasing_by
  simp only [List.length_cons]
  exact Nat.lt_succ_of_le (List.length_filter_le _ _)

/-- Reading a mapped range below its length. -/
theorem getD_range_map (n : ℕ) (g : ℕ → ℚ) (t : ℕ) (ht : t < n) :
    ((List.range n).map g).getD t 0 = g t := by
  have hlen : t < ((List.range n).map g).length := by simpa using ht
  rw [List.getD_eq_getElem _ _ hlen, List.getElem_map, List.getElem_range]

/-- C4: for every link series produced by the demand aggregator and every
slot, the aggregate demand equals the exact sum of the per-cell demands at
that slot. -/
theorem demand_conservation (thr : ℕ → List TRec) (cells : List ℕ)
    (window : Option ℚ)
    (t : Fin (aggregateLinkDemand thr cells window).demand.length) :
    (aggregateLinkDemand thr cells window).demand.getD (t : ℕ) 0 =
      ((aggregateLinkDemand thr cells window).perCellDemand.map
        (fun p => p.2.getD (t : ℕ) 0)).sum := by
  obtain ⟨tv, htv⟩ := t
  show (aggregateLinkDemand thr cells window).demand.getD tv 0 =
    ((aggregateLinkDemand thr cells window).perCellDemand.map
      (fun p => p.2.getD tv 0)).sum
  by_cases hc : cells = []
  · exfalso
    have hempty : aggregateLinkDemand thr cells window = emptySeries := by
      rw [aggregateLinkDemand, if_pos hc]
    have hlen0 : (aggregateLinkDemand thr cells window).demand.length = 0 := by
      rw [hempty]
      rfl
    omega
  · by_cases hn : nSymbolsOf thr cells window < SYMBOLS_PER_SLOT
    · exfalso
      have hempty : aggregateLinkDemand thr cells window = emptySeries := by
        rw [aggregateLinkDemand, if_neg hc, if_pos hn]
      have hlen0 : (aggregateLinkDemand thr cells window).demand.length = 0 := by
        rw [hempty]
        rfl
      omega
    · set t0 := linkT0 thr cells with ht0
      set t1 := linkT1 thr cells window with ht1
      set n := nSymbolsOf thr cells window with hnsym
      set nSlots := n / SYMBOLS_PER_SLOT with hns
      have hagg : aggregateLinkDemand thr cells window =
          { slotTs := (List.range nSlots).map
              (fun t => t0 + ((t : ℚ) + 1 / 2) * slotDurSec)
            demand := (List.range nSlots).map
              (fun t => slotBits (combinedSymbolBits thr cells t0 t1 n) t /
                (slotDurSec * 1000000000))
            perCellTraffic := ((firstDedup cells).map
              (fun c => (c, (List.range nSlots).map
                (fun t => slotBits (perCellSymbolBits thr cells t0 t1 n c) t /
                  (slotDurSec * 1000000000))))).map
              (fun p => (p.1, p.2.map (fun d => decide (1 / 100 < d))))
            perCellDemand := (firstDedup cells).map
              (fun c => (c, (List.range nSlots).map
                (fun t => slotBits (perCellSymbolBits thr cells t0 t1 n c) t /
                  (slotDurSec * 1000000000)))) } := by
        rw [aggregateLinkDemand, if_neg hc, if_neg hn]
      have hD : (aggregateLinkDemand thr cells window).demand =
          (List.range nSlots).map
            (fun s => slotBits (combinedSymbolBits thr cells t0 t1 n) s /
              (slotDurSec * 1000000000)) := by
        rw [hagg]
      have hP : (aggregateLinkDemand thr cells window).perCellDemand =
          (firstDedup cells).map
            (fun c => (c, (List.range nSlots).map
              (fun s => slotBits (perCellSymbolBits thr cells t0 t1 n c) s /
                (slotDurSec * 1000000000)))) := by
        rw [hagg]
      have htlt : tv < nSlots := by
        rw [hD] at htv
        simpa using htv
      rw [hD, hP, getD_range_map _ _ _ htlt, List.map_map]
      have hrhs : ((firstDedup cells).map
          ((fun p : ℕ × List ℚ => p.2.getD tv 0) ∘
            (fun c => (c, (List.range nSlots).map
              (fun s => slotBits (perCellSymbolBits thr cells t0 t1 n c) s /
                (slotDurSec * 1000000000)))))).sum =
          ((firstDedup cells).map
            (fun c => slotBits (perCellSymbolBits thr cells t0 t1 n c) tv /
              (slotDurSec * 1000000000))).sum := by
        apply congrArg
        apply List.map_congr_left
        intro c _
        simp only [Function.comp_apply]
        exact getD_range_map nSlots _ tv htlt
      rw [hrhs, sum_map_div_distrib]
      apply congrArg (fun x => x / (slotDurSec * 1000000000))
      have hpc : ((firstDedup cells).map
          (fun c => slotBits (perCellSymbolBits thr cells t0 t1 n c) tv)).sum =
          ((firstDedup cells).map
            (fun c => (cells.count c : ℚ) *
              slotBits (fun i => cellSymbolBits (thr c) t0 t1 n i) tv)).sum := by
        apply congrArg
        apply List.map_congr_left
        intro c _
        unfold slotBits perCellSymbolBits
        rw [← List.sum_map_mul_left]
      rw [hpc]
      have hswap : slotBits (combinedSymbolBits thr cells t0 t1 n) tv =
          (cells.map (fun c =>
            slotBits (fun i => cellSymbolBits (thr c) t0 t1 n i) tv)).sum := by
        unfold slotBits combinedSymbolBits
        exact sum_swap_list cells
          (fun c k => cellSymbolBits (thr c) t0 t1 n (tv * SYMBOLS_PER_SLOT + k))
          (List.range SYMBOLS_PER_SLOT)
      rw [hswap,
        ← sum_firstDedup_count cells
          (fun c => slotBits (fun i => cellSymbolBits (thr c) t0 t1 n i) tv)]

/-- C9: a link with no assigned cells, or whose covered time span holds
fewer symbols than one full slot, yields the empty series rather than an
error. -/
theorem aggregate_degenerate_empty (thr : ℕ → List TRec) (cells : List ℕ)
    (window : Option ℚ)
    (h : cells = [] ∨ nSymbolsOf thr cells window < SYMBOLS_PER_SLOT) :
    aggregateLinkDemand thr cells window = emptySeries := by
  rcases h with hc | hn
  · rw [aggregateLinkDemand, if_pos hc]
  · by_cases hc : cells = []
    · rw [aggregateLinkDemand, if_pos hc]
    · rw [aggregateLinkDemand, if_neg hc, if_pos hn]

/-- Witness for C9: a cell-less link and a one-record link shorter than a
slot both produce the empty quadruple. -/
theorem nSymbolsOf_single_record :
    nSymbolsOf (fun _ => [⟨0, 5⟩]) [3] none = 1 := by
  norm_num [nSymbolsOf, linkT1, linkT0, linkT1raw, tsMin, tsMax]

theorem aggregate_degenerate_empty_instance :
    (([] : List ℕ) = [] ∨
        nSymbolsOf (fun _ => []) [] none < SYMBOLS_PER_SLOT) ∧
      aggregateLinkDemand (fun _ => []) ([] : List ℕ) none = emptySeries ∧
      (nSymbolsOf (fun _ => [⟨0, 5⟩]) [3] none < SYMBOLS_PER_SLOT) ∧
      aggregateLinkDemand (fun _ => [⟨0, 5⟩]) [3] none = emptySeries :=
  ⟨Or.inl rfl,
    aggregate_degenerate_empty (fun _ => []) [] none (Or.inl rfl),
    by rw [nSymbolsOf_single_record]; norm_num [SYMBOLS_PER_SLOT],
    aggregate_degenerate_empty (fun _ => [⟨0, 5⟩]) [3] none
      (Or.inr (by rw [nSymbolsOf_single_record]; norm_num [SYMBOLS_PER_SLOT]))⟩

/-! ## The 0.01 Gbps traffic threshold (capacity.py lines 94-102 and
218-228) -/

/-- The link-level traffic mask built by `estimate_all_capacities`:
`demand_gbps > 0.01`, replaced by an all-ones mask when no slot passes the
threshold. -/
def estimateTrafficMask (demand : List ℚ) : List Bool :=
  let m := demand.map (fun d => decide (1 / 100 < d))
  if m.any id then m else List.replicate demand.length true

/-- A mask with no raised entry selects nothing. -/
theorem maskSelect_all_false (demand : List ℚ) (mask : List Bool)
    (h : ∀ b ∈ mask, b = false) : maskSelect demand mask = [] := by
  unfold maskSelect
  have hfil : (demand.zip mask).filter (fun p => p.2) = [] := by
    rw [List.filter_eq_nil_iff]
    intro p hp
    have hb : p.2 ∈ mask := (List.of_mem_zip hp).2
    simp [h p.2 hb]
  rw [hfil]
  rfl

/-- A mask with no raised entry has no traffic slots. -/
theorem countTrue_all_false (mask : List Bool) (h : ∀ b ∈ mask, b = false) :
    countTrue mask = 0 := by
  unfold countTrue
  rw [List.count_eq_zero]
  intro hmem
  have hbad := h true hmem
  simp at hbad

/-- Dropping a cell whose traffic mask is all-false from the per-cell
breakdown leaves `capacity_without_buffer` unchanged, as long as some
other cell remains. -/
theorem capacity_without_buffer_drop_silent (demand : List ℚ)
    (tmask : Option (List Bool)) (l₁ l₂ : List (ℕ × List Bool)) (c : ℕ)
    (mask : List Bool) (maxLoss : ℚ) (hmask : ∀ b ∈ mask, b = false)
    (hne : l₁ ++ l₂ ≠ []) :
    capacity_without_buffer demand tmask (l₁ ++ (c, mask) :: l₂) maxLoss =
      capacity_without_buffer demand tmask (l₁ ++ l₂) maxLoss := by
  unfold capacity_without_buffer
  by_cases hd : demand.length = 0
  · simp [hd]
  · have h1 : (l₁ ++ (c, mask) :: l₂) ≠ [] := by simp
    simp only [hd, ite_false, h1, hne, ne_eq, not_false_eq_true, ite_true]
    rw [caps_foldl_eq_filterMap, caps_foldl_eq_filterMap]
    have hmm : maskSelect demand mask = [] := maskSelect_all_false demand mask hmask
    have hcaps : (l₁ ++ (c, mask) :: l₂).filterMap
        (fun q =>
          if maskSelect demand q.2 ≠ [] then
            some (percentileLinear (maskSelect demand q.2) (100 - maxLoss))
          else none) =
        (l₁ ++ l₂).filterMap
          (fun q =>
            if maskSelect demand q.2 ≠ [] then
              some (percentileLinear (maskSelect demand q.2) (100 - maxLoss))
            else none) := by
      simp only [List.filterMap_append, List.filterMap_cons, hmm]
      simp
    rw [hcaps]

/-- Dropping a cell whose traffic mask is all-false from the per-cell
breakdown leaves the simulated worst-case loss unchanged, as long as some
other cell remains. -/
theorem simMaxCellLoss_drop_silent (demand : List ℚ)
    (l₁ l₂ : List (ℕ × List Bool)) (c : ℕ) (mask : List Bool) (C : ℚ)
    (hmask : ∀ b ∈ mask, b = false) (hne : l₁ ++ l₂ ≠ []) :
    simMaxCellLoss demand (l₁ ++ (c, mask) :: l₂) C =
      simMaxCellLoss demand (l₁ ++ l₂) C := by
  unfold simMaxCellLoss
  have h1 : (l₁ ++ (c, mask) :: l₂) ≠ [] := by simp
  simp only [h1, hne, ne_eq, not_false_eq_true, ite_true]
  rw [List.foldl_append, List.foldl_append, List.foldl_cons]
  simp [countTrue_all_false mask hmask]

/-- Buffered-capacity version of the silent-cell invariance. -/
theorem capacity_with_buffer_drop_silent (demand : List ℚ)
    (l₁ l₂ : List (ℕ × List Bool)) (c : ℕ) (mask : List Bool) (maxLoss : ℚ)
    (hmask : ∀ b ∈ mask, b = false) (hne : l₁ ++ l₂ ≠ []) :
    capacity_with_buffer demand (l₁ ++ (c, mask) :: l₂) maxLoss =
      capacity_with_buffer demand (l₁ ++ l₂) maxLoss := by
  unfold capacity_with_buffer
  by_cases hd : demand.length = 0
  · simp [hd]
  · simp only [hd, ite_false]
    apply congrArg Prod.snd
    apply List.foldl_ext
    intro b k _
    rw [simMaxCellLoss_drop_silent demand l₁ l₂ c mask ((b.1 + b.2) / 2)
      hmask hne]

/-- C10: a slot carries per-cell traffic exactly when the per-cell demand
exceeds 0.01 Gbps; the link-level fallback mask of
`estimate_all_capacities` likewise thresholds aggregate demand at
0.01 Gbps, reverting to all slots when no slot qualifies; and a cell whose
mask raises no slot contributes no per-cell constraint to either capacity
model while other cells remain. -/
theorem traffic_threshold_per_cell :
    (∀ (thr : ℕ → List TRec) (cells : List ℕ) (window : Option ℚ),
      (aggregateLinkDemand thr cells window).perCellTraffic =
        (aggregateLinkDemand thr cells window).perCellDemand.map
          (fun p => (p.1, p.2.map (fun d => decide (1 / 100 < d))))) ∧
    (∀ demand : List ℚ, (∃ d ∈ demand, 1 / 100 < d) →
      estimateTrafficMask demand = demand.map (fun d => decide (1 / 100 < d))) ∧
    (∀ demand : List ℚ, (∀ d ∈ demand, d ≤ 1 / 100) →
      estimateTrafficMask demand = List.replicate demand.length true) ∧
    (∀ (demand : List ℚ) (tmask : Option (List Bool))
      (l₁ l₂ : List (ℕ × List Bool)) (c : ℕ) (mask : List Bool) (maxLoss : ℚ),
      (∀ b ∈ mask, b = false) → l₁ ++ l₂ ≠ [] →
      capacity_without_buffer demand tmask (l₁ ++ (c, mask) :: l₂) maxLoss =
        capacity_without_buffer demand tmask (l₁ ++ l₂) maxLoss) ∧
    (∀ (demand : List ℚ) (l₁ l₂ : List (ℕ × List Bool)) (c : ℕ)
      (mask : List Bool) (maxLoss : ℚ),
      (∀ b ∈ mask, b = false) → l₁ ++ l₂ ≠ [] →
      capacity_with_buffer demand (l₁ ++ (c, mask) :: l₂) maxLoss =
        capacity_with_buffer demand (l₁ ++ l₂) maxLoss) := by
  refine ⟨?_, ?_, ?_, ?_, ?_⟩
  · intro thr cells window
    by_cases hc : cells = []
    · rw [aggregateLinkDemand, if_pos hc]
      rfl
    · by_cases hn : nSymbolsOf thr cells window < SYMBOLS_PER_SLOT
      · rw [aggregateLinkDemand, if_neg hc, if_pos hn]
        rfl
      · rw [aggregateLinkDemand, if_neg hc, if_neg hn]
  · intro demand h
    rcases h with ⟨d, hd, hlt⟩
    unfold estimateTrafficMask
    rw [if_pos]
    rw [List.any_eq_true]
    exact ⟨decide (1 / 100 < d), List.mem_map_of_mem _ hd, by simpa using hlt⟩
  · intro demand h
    unfold estimateTrafficMask
    rw [if_neg]
    rw [List.any_eq_true]
    rintro ⟨b, hb, hid⟩
    rcases List.mem_map.mp hb with ⟨d, hd, hdb⟩
    have : 1 / 100 < d := of_decide_eq_true (hdb ▸ (by simpa using hid))
    exact absurd this (not_lt.mpr (h d hd))
  · intro demand tmask l₁ l₂ c mask maxLoss hmask hne
    exact capacity_without_buffer_drop_silent demand tmask l₁ l₂ c mask maxLoss
      hmask hne
  · intro demand l₁ l₂ c mask maxLoss hmask hne
    exact capacity_with_buffer_drop_silent demand l₁ l₂ c mask maxLoss hmask hne

/-- Witness for C10 on concrete inputs. -/
theorem traffic_threshold_per_cell_instance :
    (∃ d ∈ ([1] : List ℚ), 1 / 100 < d) ∧
      estimateTrafficMask [1] = [1].map (fun d => decide ((1 : ℚ) / 100 < d)) ∧
      (∀ b ∈ ([false] : List Bool), b = false) ∧
      (([(2, [true])] : List (ℕ × List Bool)) ++ [] ≠ []) ∧
      capacity_without_buffer [1] none ([(2, [true])] ++ (5, [false]) :: []) 1 =
        capacity_without_buffer [1] none ([(2, [true])] ++ []) 1 ∧
      capacity_with_buffer [1] ([(2, [true])] ++ (5, [false]) :: []) 1 =
        capacity_with_buffer [1] ([(2, [true])] ++ []) 1 :=
  ⟨⟨1, by simp, by norm_num⟩,
    traffic_threshold_per_cell.2.1 [1] ⟨1, by simp, by norm_num⟩,
    by decide, by decide,
    traffic_threshold_per_cell.2.2.2.1 [1] none [(2, [true])] [] 5 [false] 1
      (by decide) (by decide),
    traffic_threshold_per_cell.2.2.2.2 [1] [(2, [true])] [] 5 [false] 1
      (by decide) (by decide)⟩

/-! ## Root-cause attribution (`root_cause_attribution`, capacity.py
lines 244-275) -/

/-- Per-link events of `root_cause_attribution`: links with nonpositive
capacity or no per-cell breakdown are skipped; otherwise the first
`max_events` slots whose aggregate demand exceeds the buffered capacity
are reported with the top two positive-share contributors, shares being
`100 * cell_demand / aggregate_demand`, sorted descending (Python's
stable sort on the negated share). -/
def rootCauseLink (slotTs demand : List ℚ) (perCell : List (ℕ × List ℚ))
    (cap : ℚ) (maxEvents : ℕ) : List (ℚ × List (ℕ × ℚ)) :=
  if cap ≤ 0 ∨ perCell = [] then []
  else
    (((List.range demand.length).filter
        (fun i => decide (cap < demand.getD i 0))).take maxEvents).filterMap
      (fun i =>
        if demand.getD i 0 ≤ 0 then none
        else
          some (slotTs.getD i 0,
            (((perCell.map
                  (fun p => (p.1, 100 * p.2.getD i 0 / demand.getD i 0))).filter
                (fun q => decide (0 < q.2))).insertionSort
              (fun x y => y.2 ≤ x.2)).take 2))

/-- Claim-side attribution: events for the first `max_events` slots whose
aggregate demand exceeds the capacity, skipping slots of zero aggregate
demand, each keeping the top two cells with nonzero share of that slot's
aggregate demand sorted descending by share. -/
def specRootCauseLink (slotTs demand : List ℚ) (perCell : List (ℕ × List ℚ))
    (cap : ℚ) (maxEvents : ℕ) : List (ℚ × List (ℕ × ℚ)) :=
  (((List.range demand.length).filter
      (fun i => decide (cap < demand.getD i 0))).take maxEvents).filterMap
    (fun i =>
      if demand.getD i 0 = 0 then none
      else
        some (slotTs.getD i 0,
          ((perCell.filterMap
              (fun p =>
                if 0 < 100 * p.2.getD i 0 / demand.getD i 0 then
                  some (p.1, 100 * p.2.getD i 0 / demand.getD i 0)
                else none)).insertionSort (fun x y => y.2 ≤ x.2)).take 2))

/-- Filtering a mapped list is a `filterMap`. -/
theorem filter_map_eq_filterMap {α β : Type} (g : α → β) (q : β → Bool)
    (l : List α) :
    (l.map g).filter q = l.filterMap (fun p => if q (g p) then some (g p) else none) := by
  induction l with
  | nil => rfl
  | cons a rest ih =>
    simp only [List.map_cons, List.filter_cons, List.filterMap_cons]
    by_cases hq : q (g a) = true
    · simp [hq, ih]
    · simp only [Bool.not_eq_true] at hq
      simp [hq, ih]

/-- C8: with a positive buffered capacity and a nonempty per-cell
breakdown, `root_cause_attribution`'s per-link events are exactly the
claim's: the first `max_events` congested slots (aggregate demand above
capacity), zero-demand slots skipped, each with the top two cells of
nonzero share `100 * cell_demand / aggregate_demand`, sorted descending. -/
theorem rootCauseLink_meets_spec (slotTs demand : List ℚ)
    (perCell : List (ℕ × List ℚ)) (cap : ℚ) (maxEvents : ℕ)
    (hcap : 0 < cap) (hpc : perCell ≠ []) :
    rootCauseLink slotTs demand perCell cap maxEvents =
      specRootCauseLink slotTs demand perCell cap maxEvents := by
  unfold rootCauseLink specRootCauseLink
  rw [if_neg (by simp [not_le.mpr hcap, hpc])]
  apply List.filterMap_congr
  intro i hi
  have hmem : i ∈ (List.range demand.length).filter
      (fun i => decide (cap < demand.getD i 0)) := List.mem_of_mem_take hi
  have hgt : cap < demand.getD i 0 := by
    have := (List.mem_filter.mp hmem).2
    simpa using this
  have hpos : 0 < demand.getD i 0 := lt_trans hcap hgt
  rw [if_neg (not_le.mpr hpos), if_neg (ne_of_gt hpos)]
  rw [filter_map_eq_filterMap
    (fun p : ℕ × List ℚ => (p.1, 100 * p.2.getD i 0 / demand.getD i 0))
    (fun q => decide (0 < q.2)) perCell]
  apply congrArg
  apply congrArg
  apply congrArg
  apply congrArg
  apply List.filterMap_congr
  intro p _
  by_cases hp : 0 < 100 * p.2.getD i 0 / demand.getD i 0
  · simp [hp]
  · simp [hp]

/-- Witness for C8 at a one-slot congested link. -/
theorem rootCauseLink_meets_spec_instance :
    (0 : ℚ) < 1 ∧ ([(7, [5])] : List (ℕ × List ℚ)) ≠ [] ∧
      rootCauseLink [10] [5] [(7, [5])] 1 5 =
        specRootCauseLink [10] [5] [(7, [5])] 1 5 :=
  ⟨by norm_num, by decide,
    rootCauseLink_meets_spec [10] [5] [(7, [5])] 1 5 (by norm_num) (by decide)⟩

/-! ## Topology relabeling (`infer_topology`, topology.py lines 111-144)

The clustering itself (scipy average-linkage) is external numeric code;
the anchor-constrained relabeling that `infer_topology` performs on the
cluster labels is embedded here, parametrized by the label vector the
clustering returns. -/

/-- One iteration of the anchor loop of `infer_topology`: an anchor whose
cell is known and whose required link is unclaimed assigns that link to
the cell's cluster label, unless the label is already assigned.  The
state is the association list `link_assignment` plus the `used_links`
list. -/
def anchorStep (cells labels : List ℕ) (st : List (ℕ × ℕ) × List ℕ)
    (a : ℕ × ℕ) : List (ℕ × ℕ) × List ℕ :=
  if a.1 ∈ cells ∧ a.2 ∉ st.2 then
    let lab := labels.getD (cells.indexOf a.1) 0
    match st.1.lookup lab with
    | some _ => st
    | none => ((lab, a.2) :: st.1, a.2 :: st.2)
  else st

/-- The remaining-links loop of `infer_topology`: every still-unassigned
cluster label pops one of the unused link ids (modelled in ascending
order; the source pops from a Python set, whose order is unspecified).
The junk assignment to `0` marks the state in which the source would
raise `KeyError` on an empty set. -/
def assignRemaining : List ℕ → List (ℕ × ℕ) → List ℕ → List (ℕ × ℕ)
  | [], asg, _ => asg
  | lab :: rest, asg, rem =>
    match asg.lookup lab with
    | some _ => assignRemaining rest asg rem
    | none =>
      match rem with
      | [] => assignRemaining rest ((lab, 0) :: asg) []
      | r :: rs => assignRemaining rest ((lab, r) :: asg) rs

/-- The complete cluster-label-to-link-id assignment of `infer_topology`. -/
def linkAssignment (cells labels : List ℕ) (anchors : List (ℕ × ℕ))
    (L : ℕ) : List (ℕ × ℕ) :=
  let st := anchors.foldl (anchorStep cells labels) ([], [])
  assignRemaining (firstDedup labels) st.1
    ((List.range' 1 L).filter (fun x => decide (x ∉ st.2)))

/-- The cell list of one link in the topology built by `infer_topology`:
cells are appended in input order to the link their cluster label is
assigned to. -/
def inferTopologyRelabel (cells labels : List ℕ) (anchors : List (ℕ × ℕ))
    (L : ℕ) (link : ℕ) : List ℕ :=
  (cells.zip labels).filterMap
    (fun p =>
      if (linkAssignment cells labels anchors L).lookup p.2 = some link then
        some p.1
      else none)

/-! Facts about `firstDedup`. -/

/-- `firstDedup` never invents members. -/
theorem mem_firstDedup_iff : ∀ (l : List ℕ) (c : ℕ), c ∈ firstDedup l ↔ c ∈ l
  | [], c => by simp [firstDedup]
  | a :: l, c => by
    rw [firstDedup]
    constructor
    · intro h
      rcases List.mem_cons.mp h with hc | hc
      · exact hc ▸ List.mem_cons_self a l
      · exact List.mem_cons_of_mem a
          (List.mem_of_mem_filter ((mem_firstDedup_iff _ c).mp hc))
    · intro h
      rcases List.mem_cons.mp h with hc | hc
      · exact hc ▸ List.mem_cons_self a _
      · by_cases hca : c = a
        · exact hca ▸ List.mem_cons_self a _
        · refine List.mem_cons_of_mem a ((mem_firstDedup_iff _ c).mpr ?_)
          rw [List.mem_filter]
          exact ⟨hc, by simp [hca]⟩
termination_by l => l.length
decreasing_by
  all_goals
    simp only [List.length_cons]
    exact Nat.lt_succ_of_le (List.length_filter_le _ _)

/-- `firstDedup` has no duplicates. -/
theorem firstDedup_nodup : ∀ l : List ℕ, (firstDedup l).Nodup
  | [] => by simp [firstDedup]
  | a :: l => by
    rw [firstDedup]
    refine List.nodup_cons.mpr ⟨?_, firstDedup_nodup (l.filter (fun x => !(x == a)))⟩
    intro hmem
    have hfil : a ∈ l.filter (fun x => !(x == a)) :=
      (mem_firstDedup_iff _ a).mp hmem
    have := List.of_mem_filter hfil
    simp at this
termination_by l => l.length
decreasing_by
  all_goals
    simp only [List.length_cons]
    exact Nat.lt_succ_of_le (List.length_filter_le _ _)

/-- A `Nodup` list included in another is no longer than it. -/
theorem nodup_subset_length_le {l₁ l₂ : List ℕ} (h₁ : l₁.Nodup)
    (hsub : l₁ ⊆ l₂) : l₁.length ≤ l₂.length := by
  calc l₁.length = l₁.toFinset.card := (List.toFinset_card_of_nodup h₁).symm
    _ ≤ l₂.toFinset.card := Finset.card_le_card
        (fun x hx => List.mem_toFinset.mpr (hsub (List.mem_toFinset.mp hx)))
    _ ≤ l₂.length := List.toFinset_card_le l₂

/-- A successful lookup pins a member of the association list. -/
theorem lookup_some_mem {asg : List (ℕ × ℕ)} {k v : ℕ}
    (h : asg.lookup k = some v) : (k, v) ∈ asg := by
  rcases List.lookup_eq_some_iff.mp h with ⟨l₁, l₂, rfl, -⟩
  simp

/-- The anchor fold of `infer_topology` keeps the assignment and the used
list aligned: equal sizes, no duplicate labels or links, labels drawn from
the label vector, values and used links drawn from `S`. -/
theorem anchorFold_invariant (cells labels : List ℕ) (S : List ℕ)
    (hlen : labels.length = cells.length) :
    ∀ (anchors : List (ℕ × ℕ)) (st : List (ℕ × ℕ) × List ℕ),
      (∀ a ∈ anchors, a.2 ∈ S) →
      st.1.length = st.2.length →
      (st.1.map Prod.fst).Nodup →
      st.2.Nodup →
      (∀ k ∈ st.1.map Prod.fst, k ∈ labels) →
      (∀ p ∈ st.1, p.2 ∈ S) →
      (∀ u ∈ st.2, u ∈ S) →
      ((anchors.foldl (anchorStep cells labels) st).1.length =
          (anchors.foldl (anchorStep cells labels) st).2.length) ∧
        ((anchors.foldl (anchorStep cells labels) st).1.map Prod.fst).Nodup ∧
        (anchors.foldl (anchorStep cells labels) st).2.Nodup ∧
        (∀ k ∈ (anchors.foldl (anchorStep cells labels) st).1.map Prod.fst,
          k ∈ labels) ∧
        (∀ p ∈ (anchors.foldl (anchorStep cells labels) st).1, p.2 ∈ S) ∧
        (∀ u ∈ (anchors.foldl (anchorStep cells labels) st).2, u ∈ S) := by
  intro anchors
  induction anchors with
  | nil =>
    intro st _ h1 h2 h3 h4 h5 h6
    exact ⟨h1, h2, h3, h4, h5, h6⟩
  | cons a rest ih =>
    intro st hS h1 h2 h3 h4 h5 h6
    rw [List.foldl_cons]
    have hSrest : ∀ b ∈ rest, b.2 ∈ S := fun b hb => hS b (List.mem_cons_of_mem a hb)
    have haS : a.2 ∈ S := hS a (List.mem_cons_self a rest)
    by_cases hcond : a.1 ∈ cells ∧ a.2 ∉ st.2
    · cases hl : st.1.lookup (labels.getD (cells.indexOf a.1) 0) with
      | some w =>
        have hstep : anchorStep cells labels st a = st := by
          unfold anchorStep
          rw [if_pos hcond]
          simp only [hl]
        rw [hstep]
        exact ih st hSrest h1 h2 h3 h4 h5 h6
      | none =>
        have hstep : anchorStep cells labels st a =
            ((labels.getD (cells.indexOf a.1) 0, a.2) :: st.1, a.2 :: st.2) := by
          unfold anchorStep
          rw [if_pos hcond]
          simp only [hl]
        rw [hstep]
        apply ih _ hSrest
        · simpa using h1
        · refine List.nodup_cons.mpr ⟨?_, h2⟩
          intro hmem
          rcases List.mem_map.mp hmem with ⟨p, hp, hpk⟩
          have hkey : p.1 = labels.getD (List.indexOf a.1 cells) 0 := hpk
          have hnone := List.lookup_eq_none_iff.mp hl p hp
          rw [← hkey] at hnone
          simp at hnone
        · exact List.nodup_cons.mpr ⟨hcond.2, h3⟩
        · intro k hk
          rw [List.map_cons] at hk
          rcases List.mem_cons.mp hk with hk0 | hk0
          · have hk1 : k = labels.getD (List.indexOf a.1 cells) 0 := hk0
            rw [hk1]
            have hidx : cells.indexOf a.1 < labels.length := by
              rw [hlen]
              exact List.indexOf_lt_length.mpr hcond.1
            rw [List.getD_eq_getElem _ _ hidx]
            exact List.getElem_mem hidx
          · exact h4 k hk0
        · intro p hp
          rcases List.mem_cons.mp hp with hp0 | hp0
          · rw [hp0]
            exact haS
          · exact h5 p hp0
        · intro u hu
          rcases List.mem_cons.mp hu with hu0 | hu0
          · exact hu0 ▸ haS
          · exact h6 u hu0
    · have hstep : anchorStep cells labels st a = st := by
        unfold anchorStep
        rw [if_neg hcond]
      rw [hstep]
      exact ih st hSrest h1 h2 h3 h4 h5 h6

/-- The anchor fold never overwrites an existing assignment. -/
theorem anchorFold_preserves (cells labels : List ℕ) :
    ∀ (anchors : List (ℕ × ℕ)) (st : List (ℕ × ℕ) × List ℕ) (k v : ℕ),
      st.1.lookup k = some v →
      (anchors.foldl (anchorStep cells labels) st).1.lookup k = some v := by
  intro anchors
  induction anchors with
  | nil => intro st k v h; exact h
  | cons a rest ih =>
    intro st k v h
    rw [List.foldl_cons]
    apply ih
    by_cases hcond : a.1 ∈ cells ∧ a.2 ∉ st.2
    · cases hl : st.1.lookup (labels.getD (cells.indexOf a.1) 0) with
      | some w =>
        have hstep : anchorStep cells labels st a = st := by
          unfold anchorStep
          rw [if_pos hcond]
          simp only [hl]
        rw [hstep]
        exact h
      | none =>
        have hstep : anchorStep cells labels st a =
            ((labels.getD (cells.indexOf a.1) 0, a.2) :: st.1, a.2 :: st.2) := by
          unfold anchorStep
          rw [if_pos hcond]
          simp only [hl]
        rw [hstep]
        have hk : k ≠ labels.getD (cells.indexOf a.1) 0 := by
          intro hkl
          rw [hkl, hl] at h
          exact Option.noConfusion h
        show List.lookup k _ = some v
        rw [List.lookup_cons]
        simp only [beq_eq_false_iff_ne.mpr hk]
        exact h
    · have hstep : anchorStep cells labels st a = st := by
        unfold anchorStep
        rw [if_neg hcond]
      rw [hstep]
      exact h

/-- `assignRemaining` never overwrites an existing assignment. -/
theorem assignRemaining_preserves :
    ∀ (labs : List ℕ) (asg : List (ℕ × ℕ)) (rem : List ℕ) (k v : ℕ),
      asg.lookup k = some v →
      (assignRemaining labs asg rem).lookup k = some v := by
  intro labs
  induction labs with
  | nil => intro asg rem k v h; exact h
  | cons lab rest ih =>
    intro asg rem k v h
    unfold assignRemaining
    cases hl : asg.lookup lab with
    | some w => exact ih asg rem k v h
    | none =>
      have hk : k ≠ lab := by
        intro hkl
        rw [hkl, hl] at h
        exact Option.noConfusion h
      have hpre : ∀ x : ℕ, ((lab, x) :: asg).lookup k = some v := by
        intro x
        rw [List.lookup_cons]
        simp only [beq_eq_false_iff_ne.mpr hk]
        exact h
      cases rem with
      | nil => exact ih _ _ k v (hpre 0)
      | cons r rs => exact ih _ _ k v (hpre r)

/-- After `assignRemaining`, every processed label is assigned. -/
theorem assignRemaining_covers :
    ∀ (labs : List ℕ) (asg : List (ℕ × ℕ)) (rem : List ℕ) (lab : ℕ),
      lab ∈ labs → ∃ v, (assignRemaining labs asg rem).lookup lab = some v := by
  intro labs
  induction labs with
  | nil => intro asg rem lab h; simp at h
  | cons l rest ih =>
    intro asg rem lab hmem
    unfold assignRemaining
    rcases List.mem_cons.mp hmem with hl0 | hl0
    · subst hl0
      cases hl : asg.lookup lab with
      | some w => exact ⟨w, assignRemaining_preserves rest asg rem lab w hl⟩
      | none =>
        cases rem with
        | nil =>
          exact ⟨0, assignRemaining_preserves rest _ _ lab 0 (by simp)⟩
        | cons r rs =>
          exact ⟨r, assignRemaining_preserves rest _ _ lab r (by simp)⟩
    · cases hl : asg.lookup l with
      | some w => exact ih asg rem lab hl0
      | none =>
        cases rem with
        | nil => exact ih _ _ lab hl0
        | cons r rs => exact ih _ _ lab hl0

/-- Values produced by `assignRemaining` stay inside `S` while the pool of
remaining links covers the unassigned labels. -/
theorem assignRemaining_values (S : List ℕ) :
    ∀ (labs : List ℕ) (asg : List (ℕ × ℕ)) (rem : List ℕ),
      labs.Nodup →
      labs.countP (fun l => ((asg.lookup l).isNone)) ≤ rem.length →
      (∀ x ∈ rem, x ∈ S) →
      (∀ k v, asg.lookup k = some v → v ∈ S) →
      ∀ k v, (assignRemaining labs asg rem).lookup k = some v → v ∈ S := by
  intro labs
  induction labs with
  | nil => intro asg rem _ _ _ hvals k v h; exact hvals k v h
  | cons lab rest ih =>
    intro asg rem hnd hcount hrem hvals k v h
    have hndr : rest.Nodup := (List.nodup_cons.mp hnd).2
    have hlabr : lab ∉ rest := (List.nodup_cons.mp hnd).1
    unfold assignRemaining at h
    cases hl : asg.lookup lab with
    | some w =>
      rw [hl] at h
      have hcount' : rest.countP (fun l => ((asg.lookup l).isNone)) ≤ rem.length := by
        have := hcount
        rw [List.countP_cons] at this
        simpa [hl] using this
      exact ih asg rem hndr hcount' hrem hvals k v h
    | none =>
      rw [hl] at h
      have hcount1 : rest.countP (fun l => ((asg.lookup l).isNone)) + 1 ≤
          rem.length := by
        have := hcount
        rw [List.countP_cons] at this
        simpa [hl] using this
      cases rem with
      | nil =>
        simp only [List.length_nil] at hcount1
        omega
      | cons r rs =>
        have hvals' : ∀ k' v', ((lab, r) :: asg).lookup k' = some v' → v' ∈ S := by
          intro k' v' h'
          rw [List.lookup_cons] at h'
          by_cases hkl : k' = lab
          · rw [beq_iff_eq.mpr hkl] at h'
            simp only [cond_true] at h'
            exact (Option.some_inj.mp h') ▸ hrem r (List.mem_cons_self r rs)
          · rw [beq_eq_false_iff_ne.mpr hkl] at h'
            simp only [cond_false] at h'
            exact hvals k' v' h'
        have hcount' : rest.countP (fun l => (((lab, r) :: asg).lookup l).isNone) ≤
            rs.length := by
          have hcongr : rest.countP (fun l => (((lab, r) :: asg).lookup l).isNone) =
              rest.countP (fun l => ((asg.lookup l).isNone)) := by
            apply List.countP_congr
            intro x hx
            have hxl : x ≠ lab := fun hxe => hlabr (hxe ▸ hx)
            rw [List.lookup_cons]
            simp [beq_eq_false_iff_ne.mpr hxl]
          rw [hcongr]
          simp only [List.length_cons] at hcount1
          omega
        exact ih _ rs hndr hcount' (fun x hx => hrem x (List.mem_cons_of_mem r hx))
          hvals' k v h

/-- Under the hypotheses of the partition claim, every cluster label that
occurs receives exactly one link id, and that id lies in `1..L`. -/
theorem linkAssignment_total_valid (cells labels : List ℕ)
    (anchors : List (ℕ × ℕ)) (L : ℕ)
    (hlen : labels.length = cells.length)
    (hlabs : (firstDedup labels).length ≤ L)
    (hanch : ∀ a ∈ anchors, a.2 ∈ List.range' 1 L) :
    ∀ lab ∈ labels, ∃ v,
      (linkAssignment cells labels anchors L).lookup lab = some v ∧
        v ∈ List.range' 1 L := by
  intro lab hlab
  obtain ⟨e1, e2, e3, e4, e5, e6⟩ :=
    anchorFold_invariant cells labels (List.range' 1 L) hlen anchors ([], [])
      hanch rfl (by simp) (by simp) (by simp) (by simp) (by simp)
  set st := anchors.foldl (anchorStep cells labels) ([], ([] : List ℕ)) with hst
  set rem := (List.range' 1 L).filter (fun x => decide (x ∉ st.2)) with hremdef
  have hmemfd : lab ∈ firstDedup labels := (mem_firstDedup_iff labels lab).mpr hlab
  obtain ⟨v, hv⟩ := assignRemaining_covers (firstDedup labels) st.1 rem lab hmemfd
  have hvals : ∀ k w, st.1.lookup k = some w → w ∈ List.range' 1 L :=
    fun k w hw => e5 (k, w) (lookup_some_mem hw)
  have hremS : ∀ x ∈ rem, x ∈ List.range' 1 L :=
    fun x hx => List.mem_of_mem_filter hx
  have f1 : st.1.length ≤ (firstDedup labels).countP
      (fun l => ((st.1.lookup l).isSome)) := by
    have hKsub : st.1.map Prod.fst ⊆
        (firstDedup labels).filter (fun l => ((st.1.lookup l).isSome)) := by
      intro k hk
      rw [List.mem_filter]
      refine ⟨(mem_firstDedup_iff labels k).mpr (e4 k hk), ?_⟩
      rcases List.mem_map.mp hk with ⟨p, hp, hpk⟩
      exact List.lookup_isSome_iff.mpr ⟨p, hp, beq_iff_eq.mpr hpk.symm⟩
    have hle := nodup_subset_length_le e2 hKsub
    rw [List.length_map] at hle
    rw [List.countP_eq_length_filter]
    exact hle
  have f2 : (firstDedup labels).countP (fun l => ((st.1.lookup l).isSome)) +
      (firstDedup labels).countP (fun l => ((st.1.lookup l).isNone)) =
      (firstDedup labels).length := by
    have hsplit := List.length_eq_countP_add_countP
      (p := fun l => ((st.1.lookup l).isSome)) (firstDedup labels)
    have hcongr : (firstDedup labels).countP
        (fun a => decide (¬ ((st.1.lookup a).isSome = true))) =
        (firstDedup labels).countP (fun l => ((st.1.lookup l).isNone)) := by
      apply List.countP_congr
      intro x _
      cases st.1.lookup x <;> simp
    rw [hcongr] at hsplit
    omega
  have f3 : rem.length + st.2.length = L := by
    have hSlen : (List.range' 1 L).length = L := by simp
    have hsplit := List.length_eq_countP_add_countP
      (p := fun x => decide (x ∉ st.2)) (List.range' 1 L)
    have hremlen : rem.length =
        ((List.range' 1 L).filter (fun x => decide (x ∉ st.2))).length := by
      rw [hremdef]
    have hcongr : (List.range' 1 L).countP
        (fun a => decide (¬ (decide (a ∉ st.2) = true))) =
        (List.range' 1 L).countP (fun x => decide (x ∈ st.2)) := by
      apply List.countP_congr
      intro x _
      by_cases hx : x ∈ st.2 <;> simp [hx]
    have hmemfil : ((List.range' 1 L).filter
        (fun x => decide (x ∈ st.2))).length = st.2.length := by
      apply le_antisymm
      · apply nodup_subset_length_le
        · exact List.Nodup.filter _ (List.nodup_range' 1 L)
        · intro x hx
          have := List.of_mem_filter hx
          simpa using this
      · apply nodup_subset_length_le e3
        intro u hu
        rw [List.mem_filter]
        exact ⟨e6 u hu, by simpa using hu⟩
    rw [hcongr, List.countP_eq_length_filter, List.countP_eq_length_filter,
      hmemfil] at hsplit
    omega
  have hcount : (firstDedup labels).countP
      (fun l => ((st.1.lookup l).isNone)) ≤ rem.length := by
    omega
  have hgoal : linkAssignment cells labels anchors L =
      assignRemaining (firstDedup labels) st.1 rem := rfl
  rw [hgoal]
  exact ⟨v, hv, assignRemaining_values (List.range' 1 L) (firstDedup labels)
    st.1 rem (firstDedup_nodup labels) hcount hremS hvals lab v hv⟩

/-- C5: under the conditions `infer_topology` runs in (distinct cells, one
label per cell, at most `L` clusters, anchor links inside `1..L`), every
cell id lands in exactly one link's cell list, and the union of the link
cell lists is the input cell set. -/
theorem infer_topology_partition (cells labels : List ℕ)
    (anchors : List (ℕ × ℕ)) (L : ℕ)
    (hcells : cells.Nodup) (hlen : labels.length = cells.length)
    (hlabs : (firstDedup labels).length ≤ L)
    (hanch : ∀ a ∈ anchors, a.2 ∈ List.range' 1 L) :
    (∀ c ∈ cells, ∃! link, link ∈ List.range' 1 L ∧
        c ∈ inferTopologyRelabel cells labels anchors L link) ∧
      (∀ (link : ℕ), ∀ c ∈ inferTopologyRelabel cells labels anchors L link,
        c ∈ cells) := by
  have hziplen : (cells.zip labels).length = cells.length := by
    rw [List.length_zip, hlen, min_self]
  constructor
  · intro c hc
    have hidx : cells.indexOf c < cells.length := List.indexOf_lt_length.mpr hc
    have hidxl : cells.indexOf c < labels.length := by rwa [hlen]
    have hlabmem : labels.getD (cells.indexOf c) 0 ∈ labels := by
      rw [List.getD_eq_getElem _ _ hidxl]
      exact List.getElem_mem hidxl
    obtain ⟨v, hv, hvrange⟩ := linkAssignment_total_valid cells labels anchors L
      hlen hlabs hanch (labels.getD (cells.indexOf c) 0) hlabmem
    have hpairmem : (c, labels.getD (cells.indexOf c) 0) ∈ cells.zip labels := by
      rw [List.mem_iff_getElem]
      refine ⟨cells.indexOf c, by rwa [hziplen], ?_⟩
      rw [List.getElem_zip, List.getElem_indexOf hidx,
        List.getD_eq_getElem _ _ hidxl]
    refine ⟨v, ⟨hvrange, ?_⟩, ?_⟩
    · unfold inferTopologyRelabel
      apply List.mem_filterMap.mpr
      refine ⟨(c, labels.getD (cells.indexOf c) 0), hpairmem, ?_⟩
      simp only [hv, if_pos]
    · intro link' hlink'
      rcases List.mem_filterMap.mp hlink'.2 with ⟨p, hp, hfp⟩
      by_cases hcond : (linkAssignment cells labels anchors L).lookup p.2 =
          some link'
      · rw [if_pos hcond] at hfp
        have hp1 : p.1 = c := Option.some_inj.mp hfp
        rcases List.mem_iff_getElem.mp hp with ⟨j, hj, hpj⟩
        have hjc : j < cells.length := by rwa [hziplen] at hj
        have hjl : j < labels.length := by rwa [hlen]
        have hzj : (cells.zip labels)[j] =
            (cells.get ⟨j, hjc⟩, labels.get ⟨j, hjl⟩) := List.getElem_zip
        rw [hzj] at hpj
        have hcellj : cells.get ⟨j, hjc⟩ = c := by
          have hpj1 : (cells.get ⟨j, hjc⟩, labels.get ⟨j, hjl⟩).1 = p.1 := by
            rw [hpj]
          simpa using hpj1.trans hp1
        have hjeq : cells.indexOf c = j := by
          rw [← hcellj]
          exact List.indexOf_getElem hcells j hjc
        have hp2 : p.2 = labels.getD (cells.indexOf c) 0 := by
          have hpj2 : (cells.get ⟨j, hjc⟩, labels.get ⟨j, hjl⟩).2 = p.2 := by
            rw [hpj]
          rw [← hpj2, List.getD_eq_getElem _ _ hidxl]
          simp [hjeq]
        rw [hp2, hv] at hcond
        exact (Option.some_inj.mp hcond).symm
      · rw [if_neg hcond] at hfp
        exact absurd hfp (Option.noConfusion)
  · intro link c hc
    rcases List.mem_filterMap.mp hc with ⟨p, hp, hfp⟩
    by_cases hcond : (linkAssignment cells labels anchors L).lookup p.2 =
        some link
    · rw [if_pos hcond] at hfp
      have hp1 : p.1 = c := Option.some_inj.mp hfp
      have := List.of_mem_zip hp
      exact hp1 ▸ this.1
    · rw [if_neg hcond] at hfp
      exact absurd hfp (Option.noConfusion)

/-- Witness for C5 with three cells in three clusters under the
configured anchors. -/
theorem infer_topology_partition_instance :
    (([1, 2, 3] : List ℕ).Nodup ∧ ([1, 2, 3] : List ℕ).length = 3 ∧
        (firstDedup [1, 2, 3]).length ≤ 3 ∧
        (∀ a ∈ TOPOLOGY_ANCHORS, a.2 ∈ List.range' 1 3)) ∧
      ((∀ c ∈ ([1, 2, 3] : List ℕ), ∃! link, link ∈ List.range' 1 3 ∧
          c ∈ inferTopologyRelabel [1, 2, 3] [1, 2, 3] TOPOLOGY_ANCHORS 3 link) ∧
        (∀ (link : ℕ),
          ∀ c ∈ inferTopologyRelabel [1, 2, 3] [1, 2, 3] TOPOLOGY_ANCHORS 3 link,
          c ∈ ([1, 2, 3] : List ℕ))) :=
  ⟨⟨by decide, by decide, by simp [firstDedup], by decide⟩,
    infer_topology_partition [1, 2, 3] [1, 2, 3] TOPOLOGY_ANCHORS 3
      (by decide) (by decide) (by simp [firstDedup]) (by decide)⟩

/-- Counterexample to C6 as stated: cells 1 and 2 fall into the same
cluster (labels `[1, 1, 2]`), the anchors are the configured
`TOPOLOGY_ANCHORS`, and no anchor other than `(2, 3)` claims link 3 at
all — yet link 3 ends up empty, so anchored cell 2 is not placed in
link 3: the earlier anchor `(1, 2)` already claimed cell 2's cluster for
link 2. -/
theorem infer_topology_anchor_counterexample :
    TOPOLOGY_ANCHORS.filter (fun a => a.2 == 3) = [(2, 3)] ∧
      inferTopologyRelabel [1, 2, 3] [1, 1, 2] TOPOLOGY_ANCHORS 3 3 = [] := by
  have h1 : firstDedup [1, 1, 2] = [1, 2] := by simp [firstDedup]
  have h2 : linkAssignment [1, 2, 3] [1, 1, 2] TOPOLOGY_ANCHORS 3 =
      assignRemaining [1, 2]
        ((TOPOLOGY_ANCHORS.foldl (anchorStep [1, 2, 3] [1, 1, 2]) ([], [])).1)
        ((List.range' 1 3).filter (fun x => decide (x ∉
          (TOPOLOGY_ANCHORS.foldl (anchorStep [1, 2, 3] [1, 1, 2]) ([], [])).2))) := by
    unfold linkAssignment
    rw [h1]
  constructor
  · decide
  · unfold inferTopologyRelabel
    rw [h2]
    decide

/-- C6 (amended): if, after the anchors before `(A, L)` are processed, no
earlier anchor has claimed link `L` and none has claimed cell `A`'s
cluster label, then the inferred topology places `A` in link `L`. -/
theorem infer_topology_anchor_amended (cells labels : List ℕ)
    (pre post : List (ℕ × ℕ)) (A L NL : ℕ)
    (hlen : labels.length = cells.length) (hA : A ∈ cells)
    (hfree : L ∉ (pre.foldl (anchorStep cells labels) ([], [])).2)
    (hlab : ((pre.foldl (anchorStep cells labels) ([], [])).1.lookup
      (labels.getD (cells.indexOf A) 0)) = none) :
    A ∈ inferTopologyRelabel cells labels (pre ++ (A, L) :: post) NL L := by
  set st := pre.foldl (anchorStep cells labels) ([], ([] : List ℕ)) with hst
  have hstep : anchorStep cells labels st (A, L) =
      ((labels.getD (cells.indexOf A) 0, L) :: st.1, L :: st.2) := by
    unfold anchorStep
    rw [if_pos ⟨hA, hfree⟩]
    simp only [hlab]
  have hfold : (pre ++ (A, L) :: post).foldl (anchorStep cells labels) ([], []) =
      post.foldl (anchorStep cells labels)
        ((labels.getD (cells.indexOf A) 0, L) :: st.1, L :: st.2) := by
    rw [List.foldl_append, List.foldl_cons, ← hst, hstep]
  have hanchored : ((pre ++ (A, L) :: post).foldl (anchorStep cells labels)
      ([], [])).1.lookup (labels.getD (cells.indexOf A) 0) = some L := by
    rw [hfold]
    apply anchorFold_preserves
    simp
  have hfinal : (linkAssignment cells labels (pre ++ (A, L) :: post) NL).lookup
      (labels.getD (cells.indexOf A) 0) = some L := by
    unfold linkAssignment
    exact assignRemaining_preserves _ _ _ _ _ hanchored
  have hidx : cells.indexOf A < cells.length := List.indexOf_lt_length.mpr hA
  have hidxl : cells.indexOf A < labels.length := by rwa [hlen]
  have hpairmem : (A, labels.getD (cells.indexOf A) 0) ∈ cells.zip labels := by
    rw [List.mem_iff_getElem]
    refine ⟨cells.indexOf A, ?_, ?_⟩
    · rw [List.length_zip, hlen, min_self]
      exact hidx
    · rw [List.getElem_zip, List.getElem_indexOf hidx,
        List.getD_eq_getElem _ _ hidxl]
  unfold inferTopologyRelabel
  apply List.mem_filterMap.mpr
  refine ⟨(A, labels.getD (cells.indexOf A) 0), hpairmem, ?_⟩
  simp only [hfinal, if_pos]

/-- Witness for the amended C6: two cells in distinct clusters, anchors
as configured; cell 2's anchor `(2, 3)` is processed with link 3 unused
and its cluster unclaimed, and cell 2 lands in link 3. -/
theorem infer_topology_anchor_amended_instance :
    (([1, 2] : List ℕ).length = 2 ∧ (2 : ℕ) ∈ ([1, 2] : List ℕ) ∧
        (3 : ℕ) ∉ ([(1, 2)].foldl (anchorStep [1, 2] [1, 2]) ([], [])).2 ∧
        (([(1, 2)].foldl (anchorStep [1, 2] [1, 2]) ([], [])).1.lookup
          (([1, 2] : List ℕ).getD (([1, 2] : List ℕ).indexOf 2) 0)) = none) ∧
      (2 : ℕ) ∈ inferTopologyRelabel [1, 2] [1, 2] ([(1, 2)] ++ (2, 3) :: []) 3 3 :=
  ⟨⟨by decide, by decide, by decide, by decide⟩,
    infer_topology_anchor_amended [1, 2] [1, 2] [(1, 2)] [] 2 3 3
      (by decide) (by decide) (by decide) (by decide)⟩

/-! ## Shift-tolerant correlation (`max_correlation_with_shift` and
`build_correlation_matrix`, topology.py lines 49-95)

The bucketed loss signals are exact rationals; only the final Pearson
ratio, whose denominator is a square root, lives in `ℝ`. -/

/-- Sample mean. -/
def qMean (l : List ℚ) : ℚ := l.sum / l.length

/-- Centered cross product sum, the numerator of the Pearson coefficient. -/
def qCov (a b : List ℚ) : ℚ :=
  ((a.zip b).map (fun p => (p.1 - qMean a) * (p.2 - qMean b))).sum

/-- Centered square sum, one factor of the Pearson denominator. -/
def qVar (a : List ℚ) : ℚ := (a.map (fun x => (x - qMean a) ^ 2)).sum

/-- The sampled shift offsets: `range(-max_shift, max_shift + 1, step)`
with `step = max(1, max_shift // 8)`, with `max_shift` appended when the
stride misses it. -/
def shiftList (maxShift : ℕ) : List ℤ :=
  let step := max 1 (maxShift / 8)
  let base := (List.range ((2 * maxShift) / step + 1)).map
    (fun k => -(maxShift : ℤ) + (k : ℤ) * step)
  if base.getLast? = some (maxShift : ℤ) then base else base ++ [(maxShift : ℤ)]

/-- The python slice pair `a_sub, b_sub` for one shift `s` relative to
`L = len(a)`. -/
def shiftSlices (a b : List ℚ) (s : ℤ) : List ℚ × List ℚ :=
  let L := a.length
  if 0 ≤ s then
    let k := s.toNat
    if k < L then (a.take (L - k), (b.drop k).take (L - k))
    else (a.take 1, b.drop (b.length - 1))
  else
    let k := (-s).toNat
    if k < L then ((a.drop k).take (L - k), b.take (L - k))
    else (a.drop (a.length - 1), b.take 1)

/-- Per-shift Pearson ingredients `(covariance, variance product)` for the
shifts that survive the length guard; a zero variance product is dropped,
as scipy's `pearsonr` then yields NaN, which the `np.isfinite` check in
the source rejects. -/
def shiftCandidates (a b : List ℚ) (maxShift : ℕ) : List (ℚ × ℚ) :=
  (shiftList maxShift).filterMap
    (fun s =>
      let p := shiftSlices a b s
      if p.1.length < 10 ∨ p.2.length < 10 then none
      else
        let mn := min p.1.length p.2.length
        let x := p.1.take mn
        let y := p.2.take mn
        if qVar x * qVar y = 0 then none
        else some (qCov x y, qVar x * qVar y))

/-- The Pearson coefficient of one surviving shift. -/
noncomputable def pearsonOf (p : ℚ × ℚ) : ℝ := (p.1 : ℝ) / Real.sqrt (p.2 : ℝ)

/-- Embedding of `max_correlation_with_shift` (topology.py): `0` for
series shorter than 10 buckets, otherwise the best finite Pearson
coefficient across the sampled shifts (starting from `-1`), clamped
below at `0`. -/
noncomputable def maxCorrelationWithShift (a b : List ℚ) (maxShift : ℕ) : ℝ :=
  if a.length < 10 then 0
  else max (((shiftCandidates a b maxShift).map pearsonOf).foldl max (-1)) 0

/-- Embedding of `build_correlation_matrix` (topology.py), parametrized by
the bucketed loss signals: identity diagonal, each unordered pair filled
symmetrically with the lower-index signal first. -/
noncomputable def buildCorrelationMatrix (n : ℕ) (sig : Fin n → List ℚ)
    (maxShift : ℕ) : Fin n → Fin n → ℝ :=
  fun i j =>
    if i = j then 1
    else if (i : ℕ) < (j : ℕ) then maxCorrelationWithShift (sig i) (sig j) maxShift
    else maxCorrelationWithShift (sig j) (sig i) maxShift

/-- Sum over a mapped list as a `Finset.range` sum. -/
theorem list_map_sum_as_range (g : ℚ → ℚ) :
    ∀ x : List ℚ, (x.map g).sum = ∑ i in Finset.range x.length, g (x.getD i 0)
  | [] => by simp
  | a :: xs => by
    simp only [List.map_cons, List.sum_cons, List.length_cons]
    rw [Finset.sum_range_succ', list_map_sum_as_range g xs]
    simp [add_comm]

/-- Sum over a mapped zip as a `Finset.range` sum. -/
theorem list_zip_map_sum_as_range (f : ℚ → ℚ → ℚ) :
    ∀ x y : List ℚ, ((x.zip y).map (fun p => f p.1 p.2)).sum =
      ∑ i in Finset.range (min x.length y.length),
        f (x.getD i 0) (y.getD i 0)
  | [], y => by simp
  | a :: xs, [] => by simp
  | a :: xs, b :: ys => by
    simp only [List.zip_cons_cons, List.map_cons, List.sum_cons,
      List.length_cons]
    rw [Nat.succ_min_succ, Finset.sum_range_succ',
      list_zip_map_sum_as_range f xs ys]
    simp [add_comm]

/-- Cauchy-Schwarz for the centered list sums: the squared covariance is
bounded by the variance product. -/
theorem qCov_sq_le_qVar_mul (x y : List ℚ) :
    qCov x y ^ 2 ≤ qVar x * qVar y := by
  unfold qCov qVar
  rw [list_zip_map_sum_as_range (fun s t => (s - qMean x) * (t - qMean y)) x y,
    list_map_sum_as_range (fun t => (t - qMean x) ^ 2) x,
    list_map_sum_as_range (fun t => (t - qMean y) ^ 2) y]
  have hcs := Finset.sum_mul_sq_le_sq_mul_sq (Finset.range (min x.length y.length))
    (fun i => x.getD i 0 - qMean x) (fun i => y.getD i 0 - qMean y)
  refine le_trans hcs ?_
  have hx : ∑ i in Finset.range (min x.length y.length),
      (x.getD i 0 - qMean x) ^ 2 ≤
      ∑ i in Finset.range x.length, (x.getD i 0 - qMean x) ^ 2 := by
    apply Finset.sum_le_sum_of_subset_of_nonneg
    · exact Finset.range_subset.mpr (min_le_left _ _)
    · intro i _ _
      exact sq_nonneg _
  have hy : ∑ i in Finset.range (min x.length y.length),
      (y.getD i 0 - qMean y) ^ 2 ≤
      ∑ i in Finset.range y.length, (y.getD i 0 - qMean y) ^ 2 := by
    apply Finset.sum_le_sum_of_subset_of_nonneg
    · exact Finset.range_subset.mpr (min_le_right _ _)
    · intro i _ _
      exact sq_nonneg _
  apply mul_le_mul hx hy
  · apply Finset.sum_nonneg
    intro i _
    exact sq_nonneg _
  · apply Finset.sum_nonneg
    intro i _
    exact sq_nonneg _

/-- Variances are nonnegative. -/
theorem qVar_nonneg (x : List ℚ) : 0 ≤ qVar x := by
  unfold qVar
  apply List.sum_nonneg
  intro q hq
  rcases List.mem_map.mp hq with ⟨t, _, rfl⟩
  exact sq_nonneg _

/-- A ratio whose square of the numerator is bounded by the radicand is at
most one. -/
theorem ratio_le_one {c v : ℚ} (hv : 0 < v) (hcs : c ^ 2 ≤ v) :
    (c : ℝ) / Real.sqrt (v : ℝ) ≤ 1 := by
  have hvR : (0 : ℝ) < (v : ℝ) := by exact_mod_cast hv
  have hsq : (0 : ℝ) < Real.sqrt (v : ℝ) := Real.sqrt_pos.mpr hvR
  rw [div_le_one hsq]
  calc (c : ℝ) ≤ |(c : ℝ)| := le_abs_self _
    _ = Real.sqrt ((c : ℝ) ^ 2) := (Real.sqrt_sq_eq_abs _).symm
    _ ≤ Real.sqrt (v : ℝ) := Real.sqrt_le_sqrt (by exact_mod_cast hcs)

/-- A fold of maxima stays below any common upper bound. -/
theorem foldl_max_le_of_le (c : ℝ) :
    ∀ (l : List ℝ) (a : ℝ), (∀ x ∈ l, x ≤ c) → a ≤ c → l.foldl max a ≤ c := by
  intro l
  induction l with
  | nil => intro a _ ha; exact ha
  | cons b rest ih =>
    intro a hl ha
    simp only [List.foldl_cons]
    exact ih (max a b)
      (fun x hx => hl x (List.mem_cons_of_mem b hx))
      (max_le ha (hl b (List.mem_cons_self b rest)))

/-- Every surviving Pearson candidate is at most one. -/
theorem pearson_candidate_le_one (a b : List ℚ) (maxShift : ℕ) :
    ∀ p ∈ shiftCandidates a b maxShift, pearsonOf p ≤ 1 := by
  intro p hp
  rcases List.mem_filterMap.mp hp with ⟨s, _, hs⟩
  simp only [shiftCandidates] at hs
  by_cases hlen : (shiftSlices a b s).1.length < 10 ∨ (shiftSlices a b s).2.length < 10
  · rw [if_pos hlen] at hs
    exact absurd hs (Option.noConfusion)
  · rw [if_neg hlen] at hs
    set mn := min (shiftSlices a b s).1.length (shiftSlices a b s).2.length
    set x := (shiftSlices a b s).1.take mn
    set y := (shiftSlices a b s).2.take mn
    by_cases hvz : qVar x * qVar y = 0
    · rw [if_pos hvz] at hs
      exact absurd hs (Option.noConfusion)
    · rw [if_neg hvz] at hs
      have hp2 : p = (qCov x y, qVar x * qVar y) := (Option.some_inj.mp hs).symm
      have hvpos : 0 < qVar x * qVar y :=
        lt_of_le_of_ne (mul_nonneg (qVar_nonneg x) (qVar_nonneg y)) (Ne.symm hvz)
      rw [hp2]
      exact ratio_le_one hvpos (qCov_sq_le_qVar_mul x y)

/-- The best shifted correlation lies in `[0, 1]`. -/
theorem maxCorrelationWithShift_mem_unit (a b : List ℚ) (maxShift : ℕ) :
    0 ≤ maxCorrelationWithShift a b maxShift ∧
      maxCorrelationWithShift a b maxShift ≤ 1 := by
  unfold maxCorrelationWithShift
  by_cases hl : a.length < 10
  · rw [if_pos hl]
    norm_num
  · rw [if_neg hl]
    refine ⟨le_max_right _ _, ?_⟩
    apply max_le ?_ (by norm_num)
    apply foldl_max_le_of_le
    · intro x hx
      rcases List.mem_map.mp hx with ⟨p, hp, rfl⟩
      exact pearson_candidate_le_one a b maxShift p hp
    · norm_num

/-- C7: the correlation matrix built by `build_correlation_matrix` is
symmetric with unit diagonal, and every entry lies in `[0, 1]` (negative
pairwise correlations are clamped to 0). -/
theorem correlation_symm_unit_bounds (n : ℕ) (sig : Fin n → List ℚ)
    (maxShift : ℕ) (i j : Fin n) :
    buildCorrelationMatrix n sig maxShift i j =
        buildCorrelationMatrix n sig maxShift j i ∧
      0 ≤ buildCorrelationMatrix n sig maxShift i j ∧
      buildCorrelationMatrix n sig maxShift i j ≤ 1 ∧
      buildCorrelationMatrix n sig maxShift i i = 1 := by
  refine ⟨?_, ?_, ?_, ?_⟩
  · unfold buildCorrelationMatrix
    by_cases hij : i = j
    · rw [if_pos hij, if_pos hij.symm]
    · have hji : ¬ (j = i) := fun h => hij h.symm
      rw [if_neg hij, if_neg hji]
      rcases lt_trichotomy (i : ℕ) (j : ℕ) with hlt | heq | hgt
      · have h1 : ¬ ((j : ℕ) < (i : ℕ)) := by omega
        rw [if_pos hlt, if_neg h1]
      · exact absurd (Fin.ext heq) hij
      · have h1 : ¬ ((i : ℕ) < (j : ℕ)) := by omega
        rw [if_neg h1, if_pos hgt]
  · unfold buildCorrelationMatrix
    by_cases hij : i = j
    · rw [if_pos hij]
      norm_num
    · rw [if_neg hij]
      by_cases hlt : (i : ℕ) < (j : ℕ)
      · rw [if_pos hlt]
        exact (maxCorrelationWithShift_mem_unit _ _ _).1
      · rw [if_neg hlt]
        exact (maxCorrelationWithShift_mem_unit _ _ _).1
  · unfold buildCorrelationMatrix
    by_cases hij : i = j
    · rw [if_pos hij]
    · rw [if_neg hij]
      by_cases hlt : (i : ℕ) < (j : ℕ)
      · rw [if_pos hlt]
        exact (maxCorrelationWithShift_mem_unit _ _ _).2
      · rw [if_neg hlt]
        exact (maxCorrelationWithShift_mem_unit _ _ _).2
  · unfold buildCorrelationMatrix
    rw [if_pos rfl]

end Fronthaul
